import Mathlib

/-!
Verification of the segment refinement engine of `nemere/inference/formatRefinement.py`.

The Python source is shallowly embedded: bytes are `List Nat`, Python ints are `Int`
(offsets/lengths may be negative in intermediate arithmetic), Python slicing is modelled
with its clamping semantics, and fallible operations return `Except Unit` / `Option`.
-/

/-- Python slice bound resolution for `l[a:b]`: negative indices count from the end,
and all indices are clamped into `[0, len l]`. -/
def pyBound (n : Nat) (i : Int) : Nat :=
  if i < 0 then (i + n).toNat else min i.toNat n

/-- Python slice `l[a:b]`. -/
def pySlice (l : List Nat) (a b : Int) : List Nat :=
  (l.take (pyBound l.length b)).drop (pyBound l.length a)

/-- A Python value appearing in the membership test of `isPrintableChar`:
an `int` or a `str`. Python equality between an int and a str is `False`. -/
inductive PyVal where
  | int (n : Nat)
  | str (s : String)
deriving DecidableEq

/-- Python `==` on `PyVal`: cross-type comparisons are `False`. -/
def pyValEq : PyVal → PyVal → Bool
  | .int a, .int b => a == b
  | .str a, .str b => a == b
  | _, _ => false

/-- `isPrintableChar(char)` from the source: `0x20 <= char <= 0x7e or char in ['\t', '\n', '\r']`.
The argument is an int (a byte value); the list holds one-character strings, so the
membership test compares an int with strings. -/
def isPrintableChar (char : Nat) : Bool :=
  decide (0x20 ≤ char ∧ char ≤ 0x7e)
    || [PyVal.str "\t", PyVal.str "\n", PyVal.str "\r"].any (fun v => pyValEq (PyVal.int char) v)

/-- `isPrintable(bstring)` from the source: every byte satisfies `isPrintableChar`
(the loop returns `False` at the first non-printable byte, `True` otherwise). -/
def isPrintable (bstring : List Nat) : Bool :=
  bstring.all isPrintableChar

/-- The opaque analyzer context attached to a segment. It determines the message,
so it carries the message's byte buffer (`message.data`) plus an opaque identity. -/
structure Analyzer where
  ident : Nat
  msgData : List Nat
deriving DecidableEq, Repr

/-- `MessageSegment(analyzer, offset, length)`: a view into one message's bytes. -/
structure Seg where
  ana : Analyzer
  offset : Int
  length : Int
deriving DecidableEq, Repr

/-- `segment.nextOffset = offset + length`. -/
def Seg.nextOffset (s : Seg) : Int := s.offset + s.length

/-- Length of the message buffer the segment points into (`len(segment.message.data)`). -/
def Seg.msglen (s : Seg) : Int := (s.ana.msgData.length : Int)

/-- `segment.bytes = message.data[offset:nextOffset]`. -/
def Seg.bytes (s : Seg) : List Nat := pySlice s.ana.msgData s.offset s.nextOffset

/-- The segment invariants of the data model:
`offset ≥ 0`, `length > 0`, `nextOffset ≤ len(message.data)`. -/
def Seg.valid (s : Seg) : Prop :=
  0 ≤ s.offset ∧ 0 < s.length ∧ s.nextOffset ≤ s.msglen

instance (s : Seg) : Decidable s.valid := by
  unfold Seg.valid; infer_instance

/-- The invariants weakened to allow a zero-length segment. -/
def Seg.validNN (s : Seg) : Prop :=
  0 ≤ s.offset ∧ 0 ≤ s.length ∧ s.nextOffset ≤ s.msglen

instance (s : Seg) : Decidable s.validNN := by
  unfold Seg.validNN; infer_instance

/-- C2: the claim states `isPrintableChar(b)` is true iff `0x20 ≤ b ≤ 0x7E` or `b` is the
numeric code of tab (0x09), line feed (0x0A) or carriage return (0x0D). The code compares
the int byte to the string literals `'\t'`, `'\n'`, `'\r'`, which in Python is always
`False`, so tab/LF/CR are rejected: `isPrintableChar 0x09 = false`, contradicting the
claim (and the function's own docstring). `isPrintable` on the one-byte string `b"\t"` is
`false` likewise, while the claim requires `true`. -/
theorem c2_printable_tab_rejected :
    isPrintableChar 0x09 = false ∧ isPrintableChar 0x0a = false ∧
    isPrintableChar 0x0d = false ∧ isPrintable [0x09] = false ∧
    isPrintableChar 0x20 = true ∧ isPrintableChar 0x7e = true ∧
    isPrintableChar 0x7f = false ∧ isPrintable [] = true := by
  decide

/-- One iteration of the loop in `Merger.merge`:
`if segl.offset + segl.length == segr.offset and self.condition(segl, segr):` update
`mergedSegments[-1]` in place, `else:` append `segr`. The accumulator is kept reversed,
so its head is `mergedSegments[-1]`; it starts nonempty and never becomes empty, the
`[]` case is unreachable. -/
def Merger.mergeStep (condition : Seg → Seg → Bool) (acc : List Seg) (p : Seg × Seg) :
    List Seg :=
  match acc with
  | [] => [p.2]
  | last :: earlier =>
    if p.1.nextOffset == p.2.offset && condition p.1 p.2 then
      ⟨last.ana, last.offset, last.length + p.2.length⟩ :: earlier
    else
      p.2 :: last :: earlier

/-- `Merger.merge`: `mergedSegments = segments[0:1]`, then fold the step over
`zip(segments[:-1], segments[1:])` (the `len(self.segments) > 1` guard is subsumed:
the pair list is empty for shorter inputs). -/
def Merger.merge (condition : Seg → Seg → Bool) (segments : List Seg) : List Seg :=
  match segments with
  | [] => []
  | s0 :: rest =>
    ((segments.zip rest).foldl (Merger.mergeStep condition) [s0]).reverse

/-- `MergeConsecutiveChars.condition`: both segments consist of printable characters. -/
def MergeConsecutiveChars.condition (segl segr : Seg) : Bool :=
  isPrintable segl.bytes && isPrintable segr.bytes

/-- Sum of the `length` fields of a list of segments. -/
def sumLens (ws : List Seg) : Int := (ws.map Seg.length).sum

/-- Modelled from the spec: break a segment sequence into maximal runs in which every
consecutive original pair is byte-adjacent and satisfies the condition. -/
def breakRuns (condition : Seg → Seg → Bool) : List Seg → List (List Seg)
  | [] => []
  | [s] => [[s]]
  | s :: t :: rest =>
    match breakRuns condition (t :: rest) with
    | [] => [[s]]
    | g :: gs =>
      if s.nextOffset == t.offset && condition s t then (s :: g) :: gs
      else [s] :: g :: gs

/-- Modelled from the spec: collapse a run into one segment with the first segment's
analyzer context, the first segment's offset, and the run's summed length.
(Never applied to an empty run.) -/
def collapse : List Seg → Seg
  | [] => ⟨⟨0, []⟩, 0, 0⟩
  | s :: rest => ⟨s.ana, s.offset, s.length + sumLens rest⟩

/-- Modelled from the spec: the contract of the merge engine (§4.2) — each maximal
qualifying run collapsed into one spanning segment. -/
def mergeSpec (condition : Seg → Seg → Bool) (segments : List Seg) : List Seg :=
  (breakRuns condition segments).map collapse

/-- Left-to-right reformulation of the merge loop: `last` is the collapsed run so far,
`lastOrig` the last original segment of that run. -/
def mergeRunGo (condition : Seg → Seg → Bool) (last lastOrig : Seg) : List Seg → List Seg
  | [] => [last]
  | r :: rest =>
    if lastOrig.nextOffset == r.offset && condition lastOrig r then
      mergeRunGo condition ⟨last.ana, last.offset, last.length + r.length⟩ r rest
    else
      last :: mergeRunGo condition r r rest

lemma merge_foldl_eq_mergeRunGo (condition : Seg → Seg → Bool) :
    ∀ (rest : List Seg) (last lastOrig : Seg) (accRev : List Seg),
      ((lastOrig :: rest).zip rest).foldl (Merger.mergeStep condition) (last :: accRev)
        = (mergeRunGo condition last lastOrig rest).reverse ++ accRev := by
  intro rest
  induction rest with
  | nil => intro last lastOrig accRev; simp [mergeRunGo]
  | cons r rs ih =>
    intro last lastOrig accRev
    simp only [List.zip_cons_cons, List.foldl_cons, Merger.mergeStep, mergeRunGo]
    by_cases h : (lastOrig.nextOffset == r.offset && condition lastOrig r) = true
    · simp only [h, if_pos]
      rw [ih]
    · simp only [Bool.not_eq_true] at h
      simp only [h, Bool.false_eq_true, if_false]
      rw [ih]
      simp

lemma breakRuns_cons (condition : Seg → Seg → Bool) (s : Seg) (l : List Seg) :
    ∃ g gs, breakRuns condition (s :: l) = (s :: g) :: gs := by
  induction l generalizing s with
  | nil => exact ⟨[], [], rfl⟩
  | cons t rest ih =>
    obtain ⟨g', gs', h⟩ := ih t
    by_cases hc : (s.nextOffset == t.offset && condition s t) = true
    · exact ⟨t :: g', gs', by simp [breakRuns, h, hc]⟩
    · simp only [Bool.not_eq_true] at hc
      exact ⟨[], (t :: g') :: gs', by simp [breakRuns, h, hc]⟩

lemma mergeRunGo_spec (condition : Seg → Seg → Bool) :
    ∀ (rest : List Seg) (last lastOrig : Seg) (g : List Seg) (gs : List (List Seg)),
      breakRuns condition (lastOrig :: rest) = (lastOrig :: g) :: gs →
      mergeRunGo condition last lastOrig rest
        = (⟨last.ana, last.offset, last.length + sumLens g⟩ : Seg) :: gs.map collapse := by
  intro rest
  induction rest with
  | nil =>
    intro last lastOrig g gs h
    simp only [breakRuns, List.cons.injEq] at h
    obtain ⟨⟨-, hg⟩, hgs⟩ := h
    subst hg hgs
    simp [mergeRunGo, sumLens]
  | cons r rs ih =>
    intro last lastOrig g gs h
    obtain ⟨g', gs', hbr⟩ := breakRuns_cons condition r rs
    by_cases hc : (lastOrig.nextOffset == r.offset && condition lastOrig r) = true
    · simp only [breakRuns, hbr, hc, if_pos, List.cons.injEq] at h
      obtain ⟨⟨-, hg⟩, hgs⟩ := h
      subst hg hgs
      simp only [mergeRunGo, hc, if_pos]
      rw [ih _ r g' gs' hbr]
      simp only [sumLens, List.map_cons, List.sum_cons, add_assoc]
    · simp only [Bool.not_eq_true] at hc
      simp only [breakRuns, hbr, hc, Bool.false_eq_true, if_false, List.cons.injEq] at h
      obtain ⟨⟨-, hg⟩, hgs⟩ := h
      subst hg hgs
      simp only [mergeRunGo, hc, Bool.false_eq_true, if_false]
      rw [ih _ r g' gs' hbr]
      simp [sumLens, collapse]

lemma merge_eq_mergeSpec (condition : Seg → Seg → Bool) (segments : List Seg) :
    Merger.merge condition segments = mergeSpec condition segments := by
  match segments with
  | [] => rfl
  | s0 :: rest =>
    obtain ⟨g, gs, hbr⟩ := breakRuns_cons condition s0 rest
    have h1 := merge_foldl_eq_mergeRunGo condition rest s0 s0 []
    have h2 := mergeRunGo_spec condition rest s0 s0 g gs hbr
    simp only [Merger.merge, mergeSpec, hbr, h1, List.append_nil, List.reverse_reverse, h2,
      List.map_cons, collapse]

/-- C6: for every ordered segment sequence and every condition, `Merger.merge` equals the
spec contract `mergeSpec`: each maximal run of originally byte-adjacent segments whose
every consecutive original pair satisfies the condition is collapsed into one segment
with the first segment's analyzer context, the first segment's offset and the run's
summed length (condition evaluated on original pairs only); other neighbors stay
separate. `MergeConsecutiveChars` instantiates the condition as both sides being fully
printable. -/
theorem c6_merge_contract (condition : Seg → Seg → Bool) (segments : List Seg) :
    Merger.merge condition segments = mergeSpec condition segments ∧
    MergeConsecutiveChars.condition
      = fun segl segr => isPrintable segl.bytes && isPrintable segr.bytes :=
  ⟨merge_eq_mergeSpec condition segments, rfl⟩

/-- Left-integration step of `RelocateSplits.split`: if the last finalized segment
`mangledSegments[-1]` is byte-adjacent to the center segment, ask `toTheLeft` for the new
split position inside it; a position short of its length shrinks (or, at position 0,
deletes) it and widens the center backward by the freed suffix. Returns the updated
reversed finalized list and the updated center segment. -/
def RelocateSplits.integrateLeft (toTheLeft : Seg → Int) (mangledRev : List Seg)
    (segc : Seg) : List Seg × Seg :=
  match mangledRev with
  | [] => ([], segc)
  | segl :: mearlier =>
    if segl.nextOffset == segc.offset then
      let splitpos := toTheLeft segl
      if splitpos < segl.length then
        let restlen := segl.length - splitpos
        let segc' : Seg := ⟨segc.ana, segc.offset - restlen, segc.length + restlen⟩
        if splitpos > 0 then (⟨segl.ana, segl.offset, splitpos⟩ :: mearlier, segc')
        else (mearlier, segc')
      else (segl :: mearlier, segc)
    else (segl :: mearlier, segc)

/-- The `while segmentStack:` loop of `RelocateSplits.split`. `stack` holds the segments
still to process in message order (the Python stack is reversed and popped from the end);
`mangledRev` is `mangledSegments` reversed (head = `mangledSegments[-1]`). A center
segment that is not fully printable passes through untouched (`cancel split relocation`);
otherwise the left neighbor then the pending right neighbor are integrated. -/
def RelocateSplits.go (tL tR : Seg → Int) (stack mangledRev : List Seg) : List Seg :=
  match stack with
  | [] => mangledRev
  | segc :: stack' =>
    if isPrintable segc.bytes then
      let lm := RelocateSplits.integrateLeft tL mangledRev segc
      match stack' with
      | [] => lm.2 :: lm.1
      | segr :: rest =>
        if lm.2.nextOffset == segr.offset then
          let splitpos := tR segr
          if splitpos > 0 then
            let segc2 : Seg := ⟨lm.2.ana, lm.2.offset, lm.2.length + splitpos⟩
            if segr.length - splitpos > 0 then
              RelocateSplits.go tL tR
                (⟨segr.ana, segr.offset + splitpos, segr.length - splitpos⟩ :: rest)
                (segc2 :: lm.1)
            else
              RelocateSplits.go tL tR rest (segc2 :: lm.1)
          else
            RelocateSplits.go tL tR (segr :: rest) (lm.2 :: lm.1)
        else
          RelocateSplits.go tL tR (segr :: rest) (lm.2 :: lm.1)
    else
      RelocateSplits.go tL tR stack' (segc :: mangledRev)
termination_by stack.length
decreasing_by all_goals (simp; try omega)

/-- `RelocateSplits.split`: `mangledSegments = list()` and the loop only runs under
`if len(self.segments) > 1:`, so sequences of fewer than two segments yield the empty
list. -/
def RelocateSplits.split (tL tR : Seg → Int) (segments : List Seg) : List Seg :=
  if segments.length > 1 then (RelocateSplits.go tL tR segments []).reverse else []

/-- Count of the leading run of printable bytes of a byte string
(the scan in `ResplitConsecutiveChars.toTheRight`; `toTheLeft` applies it to the
reversed bytes). -/
def leadingPrintableCount : List Nat → Nat
  | [] => 0
  | c :: cs => if isPrintableChar c then leadingPrintableCount cs + 1 else 0

/-- `ResplitConsecutiveChars.toTheLeft`: `splitpos = segl.length` decremented once per
trailing printable byte. -/
def ResplitConsecutiveChars.toTheLeft (segl : Seg) : Int :=
  segl.length - (leadingPrintableCount segl.bytes.reverse : Int)

/-- `ResplitConsecutiveChars.toTheRight`: the count of leading printable bytes. -/
def ResplitConsecutiveChars.toTheRight (segr : Seg) : Int :=
  (leadingPrintableCount segr.bytes : Int)

/-- The char-run relocation pass (§4.3 instance). -/
def ResplitConsecutiveChars.split (segments : List Seg) : List Seg :=
  RelocateSplits.split ResplitConsecutiveChars.toTheLeft ResplitConsecutiveChars.toTheRight
    segments

/-- C1: byte-preservation fails for the split-relocation pass: `RelocateSplits.split`
(shown on its `ResplitConsecutiveChars` instance, §4.3) returns the empty list on any
single-segment sequence, because `mangledSegments` starts empty and the whole loop is
guarded by `len(self.segments) > 1`; the segment's three bytes are dropped, violating the
concatenation invariant the claim asserts for every pass. -/
theorem c1_relocate_drops_single_segment :
    ResplitConsecutiveChars.split [⟨⟨0, [65, 66, 67]⟩, 0, 3⟩] = [] ∧
    (⟨⟨0, [65, 66, 67]⟩, 0, 3⟩ : Seg).bytes = [65, 66, 67] := by
  constructor
  · rfl
  · decide

/-- The three 2-byte windows anchored at a field boundary `b` of a message:
`across = msgbytes[b-1:b+1]`, `before = msgbytes[b-2:b]`, `after = msgbytes[b:b+2]`
(recorded in the order `across, before, after` as in `countPairFrequencies`). -/
def boundaryWindows (msgbytes : List Nat) (fieldboundary : Int) : List (List Nat) :=
  [pySlice msgbytes (fieldboundary - 1) (fieldboundary + 1),
   pySlice msgbytes (fieldboundary - 2) fieldboundary,
   pySlice msgbytes fieldboundary (fieldboundary + 2)]

/-- `Resplit2LeastFrequentPair.countPairFrequencies`: for every message, for every
segment offset that is an internal boundary at least `__CHUNKLEN = 2` bytes from both
message ends, record the three windows. The `Counter` is modelled as the list of all
recorded windows; a Counter lookup is `List.count`. (Python reads `segsList[0]` for the
message bytes, raising on an empty sub-list; here an empty sub-list contributes
nothing.) -/
def Resplit2LeastFrequentPair.countPairFrequencies (allMsgsSegs : List (List Seg)) :
    List (List Nat) :=
  (allMsgsSegs.map (fun segsList =>
    let msgbytes := (segsList.headD ⟨⟨0, []⟩, 0, 0⟩).ana.msgData
    let msglen : Int := (msgbytes.length : Int)
    ((segsList.map Seg.offset).map (fun fieldboundary =>
      if fieldboundary = 0 ∨ fieldboundary = msglen then []
      else if fieldboundary < 2 ∨ fieldboundary + 2 > msglen then []
      else boundaryWindows msgbytes fieldboundary)).flatten)).flatten

/-- `Resplit2LeastFrequentPair.lookupLeastFrequent`. The class-level table
`__pairFrequencies` starts as `None`; subscripting `None` raises `TypeError`, modelled
as `Except.error ()`. The final Python branch `if countMin == countAfter: return 1` is
exhaustive when reached (the minimum of three values equals one of them), so it is
embedded as the trailing `else`. -/
def Resplit2LeastFrequentPair.lookupLeastFrequent (table : Option (List (List Nat)))
    (seg : Seg) : Except Unit Int :=
  if seg.offset = 0 then .ok 0
  else if seg.offset < 2 ∨ seg.offset + 2 > seg.msglen then .ok 0
  else
    match table with
    | none => .error ()
    | some pairFrequencies =>
      let msgbytes := seg.ana.msgData
      let across := pySlice msgbytes (seg.offset - 1) (seg.offset + 1)
      let before := pySlice msgbytes (seg.offset - 2) seg.offset
      let after := pySlice msgbytes seg.offset (seg.offset + 2)
      let countAcross := pairFrequencies.count across
      let countBefore := pairFrequencies.count before
      let countAfter := pairFrequencies.count after
      let countMin := min countAcross (min countBefore countAfter)
      .ok (if countMin = countAcross then 0
           else if countMin = countBefore then -1
           else 1)

/-- The `while segmentStack:` loop of `Resplit2LeastFrequentPair.split`; `mangledRev`
is `mangledSegments` reversed. `mangledSegments` starts as `[self.segments[0]]` and a
segment is appended every iteration, so the `[]` case is unreachable. -/
def Resplit2LeastFrequentPair.go (table : Option (List (List Nat))) :
    List Seg → List Seg → Except Unit (List Seg)
  | [], mangledRev => .ok mangledRev.reverse
  | segc :: stack, mangledRev =>
    match mangledRev with
    | [] => Resplit2LeastFrequentPair.go table stack [segc]
    | segl :: mearlier =>
      if segl.nextOffset == segc.offset then
        match Resplit2LeastFrequentPair.lookupLeastFrequent table segc with
        | .error e => .error e
        | .ok splitshift =>
          if (0 > splitshift ∧ splitshift ≥ -segl.length)
              ∨ (0 < splitshift ∧ splitshift ≤ segc.length) then
            let mangled' := if segl.length ≠ -splitshift
              then (⟨segl.ana, segl.offset, segl.length + splitshift⟩ : Seg) :: mearlier
              else mearlier
            Resplit2LeastFrequentPair.go table stack
              ((⟨segc.ana, segc.offset + splitshift, segc.length - splitshift⟩ : Seg)
                :: mangled')
          else
            Resplit2LeastFrequentPair.go table stack (segc :: segl :: mearlier)
      else
        Resplit2LeastFrequentPair.go table stack (segc :: segl :: mearlier)

/-- `Resplit2LeastFrequentPair.split`: `segmentStack = list(reversed(self.segments[1:]))`,
`mangledSegments = [self.segments[0]]` (an IndexError on an empty input, modelled as
`Except.error ()`), then the loop. -/
def Resplit2LeastFrequentPair.split (table : Option (List (List Nat)))
    (segments : List Seg) : Except Unit (List Seg) :=
  match segments with
  | [] => .error ()
  | s0 :: rest => Resplit2LeastFrequentPair.go table rest [s0]

/-- Scanning consecutive boundaries the way the split loop does, is there one that is
byte-adjacent to its predecessor and at least 2 bytes from both edges of its message
(so that `lookupLeastFrequent` actually consults the frequency table there)? -/
def hasDeepBoundary : Seg → List Seg → Bool
  | _, [] => false
  | prev, c :: rest =>
    (prev.nextOffset == c.offset && decide (2 ≤ c.offset)
      && decide (c.offset + 2 ≤ c.msglen))
      || hasDeepBoundary c rest

lemma resplit_go_none (stack : List Seg) :
    ∀ (m : Seg) (mearlier : List Seg),
      Resplit2LeastFrequentPair.go none stack (m :: mearlier)
        = if hasDeepBoundary m stack then .error ()
          else .ok ((m :: mearlier).reverse ++ stack) := by
  induction stack with
  | nil => intro m mearlier; simp [Resplit2LeastFrequentPair.go, hasDeepBoundary]
  | cons c rest ih =>
    intro m mearlier
    simp only [Resplit2LeastFrequentPair.go, hasDeepBoundary]
    by_cases hadj : (m.nextOffset == c.offset) = true
    · simp only [hadj, if_pos]
      by_cases h0 : c.offset = 0
      · have hlk : Resplit2LeastFrequentPair.lookupLeastFrequent none c = .ok 0 := by
          simp [Resplit2LeastFrequentPair.lookupLeastFrequent, h0]
        have hng : ¬ ((0:Int) > 0 ∧ (0:Int) ≥ -m.length ∨ (0:Int) < 0 ∧ (0:Int) ≤ c.length) := by
          omega
        have hno2 : ¬ ((2:Int) ≤ c.offset) := by omega
        simp [hlk, hng, hno2, ih c (m :: mearlier), List.append_assoc]
      · by_cases hsh : c.offset < 2 ∨ c.offset + 2 > c.msglen
        · have hlk : Resplit2LeastFrequentPair.lookupLeastFrequent none c = .ok 0 := by
            simp [Resplit2LeastFrequentPair.lookupLeastFrequent, h0, hsh]
          have hng : ¬ ((0:Int) > 0 ∧ (0:Int) ≥ -m.length ∨ (0:Int) < 0 ∧ (0:Int) ≤ c.length) := by
            omega
          have h2 : (decide (2 ≤ c.offset) && decide (c.offset + 2 ≤ c.msglen)) = false := by
            rcases hsh with h | h
            · have hx : ¬ ((2:Int) ≤ c.offset) := by omega
              simp [hx]
            · have hx : ¬ (c.offset + 2 ≤ c.msglen) := by omega
              simp [hx]
          simp [hlk, hng, h2, ih c (m :: mearlier), List.append_assoc]
        · have hlk : Resplit2LeastFrequentPair.lookupLeastFrequent none c = .error () := by
            simp [Resplit2LeastFrequentPair.lookupLeastFrequent, h0, hsh]
          have h2 : (decide (2 ≤ c.offset) && decide (c.offset + 2 ≤ c.msglen)) = true := by
            push_neg at hsh
            obtain ⟨ha, hb⟩ := hsh
            have ha' : (2:Int) ≤ c.offset := by omega
            have hb' : c.offset + 2 ≤ c.msglen := by omega
            simp [ha', hb']
          simp [hlk, h2]
    · simp only [Bool.not_eq_true] at hadj
      simp only [hadj, Bool.false_eq_true, if_false, Bool.false_and, Bool.false_or]
      rw [ih c (m :: mearlier)]
      simp [List.append_assoc]

/-- C9 (amended): invoking `Resplit2LeastFrequentPair.split` before
`countPairFrequencies` has built the table (table = `None`) fails exactly when the
sequence contains a boundary that is byte-adjacent to its predecessor and at least
`__CHUNKLEN = 2` bytes from both message edges — only there is the table subscripted
(`TypeError` on `None`). Sequences with no such boundary (e.g. all boundaries at or
near the message edges) are returned unchanged, with every window-count lookup
short-circuited to a 0 shift. -/
theorem c9_resplit_unbuilt_table (s0 : Seg) (rest : List Seg) :
    Resplit2LeastFrequentPair.split none (s0 :: rest)
      = if hasDeepBoundary s0 rest then .error () else .ok (s0 :: rest) := by
  have h := resplit_go_none rest s0 []
  simpa [Resplit2LeastFrequentPair.split] using h

/-- C9 counterexample: the claim says the call is rejected for *every* segment sequence,
but a single-segment sequence (no internal boundary at all) passes through unchanged
with the table still unbuilt. -/
theorem c9_counterexample :
    Resplit2LeastFrequentPair.split none [⟨⟨0, [1, 2, 3]⟩, 0, 3⟩]
      = .ok [⟨⟨0, [1, 2, 3]⟩, 0, 3⟩] := by
  rfl

/-- C4 (amended): with the table built, for a boundary at least 2 bytes from both
message edges the shift returned by `lookupLeastFrequent` is 0 when the across-window
count is weakly the smallest, -1 (shift left by one byte) when the before-window count
is strictly smaller than the across count and at most the after count, and +1 (shift
right by one byte) when the after-window count is strictly smaller than both others;
boundaries at or within 1 byte of a message edge always get shift 0, and the shift never
exceeds 1 byte in magnitude. (The original claim's "left only when before is strictly
the smallest" fails on the tie `before = after < across`, where the code shifts left.) -/
theorem c4_lookup_least_frequent (pf : List (List Nat)) (seg : Seg) :
    ((seg.offset < 2 ∨ seg.offset + 2 > seg.msglen) →
      Resplit2LeastFrequentPair.lookupLeastFrequent (some pf) seg = .ok 0) ∧
    (2 ≤ seg.offset → seg.offset + 2 ≤ seg.msglen →
      ∀ cA cB cAf : Nat,
        cA = pf.count (pySlice seg.ana.msgData (seg.offset - 1) (seg.offset + 1)) →
        cB = pf.count (pySlice seg.ana.msgData (seg.offset - 2) seg.offset) →
        cAf = pf.count (pySlice seg.ana.msgData seg.offset (seg.offset + 2)) →
        Resplit2LeastFrequentPair.lookupLeastFrequent (some pf) seg
          = .ok (if cA ≤ cB ∧ cA ≤ cAf then 0 else if cB ≤ cAf then -1 else 1)) ∧
    (∀ r : Int, Resplit2LeastFrequentPair.lookupLeastFrequent (some pf) seg = .ok r →
      -1 ≤ r ∧ r ≤ 1) := by
  refine ⟨?_, ?_, ?_⟩
  · intro hsh
    by_cases h0 : seg.offset = 0
    · simp [Resplit2LeastFrequentPair.lookupLeastFrequent, h0]
    · simp [Resplit2LeastFrequentPair.lookupLeastFrequent, h0, hsh]
  · intro h2 h3 cA cB cAf hA hB hAf
    have h0 : ¬ (seg.offset = 0) := by omega
    have hsh : ¬ (seg.offset < 2 ∨ seg.offset + 2 > seg.msglen) := by omega
    simp only [Resplit2LeastFrequentPair.lookupLeastFrequent, h0, if_false, hsh,
      if_false, ← hA, ← hB, ← hAf]
    congr 1
    split_ifs <;> omega
  · intro r hr
    by_cases h0 : seg.offset = 0
    · simp [Resplit2LeastFrequentPair.lookupLeastFrequent, h0] at hr
      omega
    · by_cases hsh : seg.offset < 2 ∨ seg.offset + 2 > seg.msglen
      · simp [Resplit2LeastFrequentPair.lookupLeastFrequent, h0, hsh] at hr
        omega
      · simp only [Resplit2LeastFrequentPair.lookupLeastFrequent, h0, if_false, hsh,
          if_false, Except.ok.injEq] at hr
        split at hr <;> omega

/-- C4 witness: a concrete boundary 2 bytes into a 4-byte message where all three
window counts tie, so the across window weakly wins and the shift is 0. -/
theorem c4_lookup_least_frequent_witness :
    Resplit2LeastFrequentPair.lookupLeastFrequent (some [[5, 5]])
      ⟨⟨0, [5, 5, 5, 5]⟩, 2, 2⟩ = .ok 0 := by
  have h := (c4_lookup_least_frequent [[5, 5]] ⟨⟨0, [5, 5, 5, 5]⟩, 2, 2⟩).2.1
    (by decide) (by decide) 1 1 1 (by decide) (by decide) (by decide)
  simpa using h

/-- C4 counterexample: for the table `[[0,1],[0,1]]` and the boundary at offset 2 of
message `[0,0,1,1]`, the before window `[0,0]` and after window `[1,1]` both have count
0 while the across window `[0,1]` has count 2; the code shifts left (-1) although the
before count is not strictly the smallest (it ties with the after count), refuting
"shifts left only when the before-window count is strictly the smallest". -/
theorem c4_counterexample :
    Resplit2LeastFrequentPair.lookupLeastFrequent (some [[0, 1], [0, 1]])
      ⟨⟨0, [0, 0, 1, 1]⟩, 2, 2⟩ = .ok (-1) ∧
    ¬ (([[0, 1], [0, 1]] : List (List Nat)).count [0, 0]
        < ([[0, 1], [0, 1]] : List (List Nat)).count [1, 1]) := by
  exact ⟨by rfl, by decide⟩

/-- Python `range(start, stop, step)` for a positive step (the only use in this file is
`range(selSeg.offset, selSeg.nextOffset, chunkLength)`; a step of 0 raises in Python,
and the theorems below assume a positive chunk length). -/
def pyRange (start stop step : Int) : List Int :=
  if h : 0 < step ∧ start < stop then
    start :: pyRange (start + step) stop step
  else []
termination_by (stop - start).toNat
decreasing_by omega

/-- `SplitFixed.split(segmentID, chunkLength)`: replace the selected segment by chunks of
the fixed length (the last one carrying `remainLen` when shorter); an out-of-range
`segmentID` raises IndexError, modelled as `none`. -/
def SplitFixed.split (segments : List Seg) (segmentID : Nat) (chunkLength : Int) :
    Option (List Seg) :=
  match segments[segmentID]? with
  | none => none
  | some selSeg =>
    if chunkLength < selSeg.length then
      let newSegs := (pyRange selSeg.offset selSeg.nextOffset chunkLength).map
        (fun chunkoff =>
          (⟨selSeg.ana, chunkoff, min (selSeg.nextOffset - chunkoff) chunkLength⟩ : Seg))
      some (segments.take segmentID ++ newSegs ++ segments.drop (segmentID + 1))
    else
      some segments

/-- Modelled from the spec (§4.7): consecutive chunks of the fixed length covering
`[offset, offset + len)`, the last chunk carrying the remainder when the chunk length
does not evenly divide `len`. -/
def specFixedChunks (ana : Analyzer) (offset len chunk : Int) : List Seg :=
  if h : 0 < chunk ∧ 0 < len then
    if len ≤ chunk then [⟨ana, offset, len⟩]
    else ⟨ana, offset, chunk⟩ :: specFixedChunks ana (offset + chunk) (len - chunk) chunk
  else []
termination_by len.toNat
decreasing_by omega

lemma pyRange_map_chunks (ana : Analyzer) (chunk : Int) (hc : 0 < chunk) :
    ∀ (n : Nat) (len offset : Int), len.toNat ≤ n → 0 < len →
      (pyRange offset (offset + len) chunk).map
        (fun chunkoff => (⟨ana, chunkoff, min (offset + len - chunkoff) chunk⟩ : Seg))
        = specFixedChunks ana offset len chunk := by
  intro n
  induction n with
  | zero =>
    intro len offset hle hpos
    exact absurd hle (by omega)
  | succ k ih =>
    intro len offset hle hpos
    rw [pyRange, dif_pos ⟨hc, by omega⟩, specFixedChunks, dif_pos ⟨hc, hpos⟩]
    simp only [List.map_cons]
    by_cases hle2 : len ≤ chunk
    · rw [if_pos hle2]
      have hr : pyRange (offset + chunk) (offset + len) chunk = [] := by
        rw [pyRange, dif_neg]
        omega
      rw [hr]
      have hm : min (offset + len - offset) chunk = len := by omega
      simp [hm, hle2]
    · rw [if_neg hle2]
      have hm : min (offset + len - offset) chunk = chunk := by omega
      have harith : offset + chunk + (len - chunk) = offset + len := by ring
      have htail := ih (len - chunk) (offset + chunk) (by omega) (by omega)
      simp only [harith] at htail
      rw [hm, htail]

/-- C8: for a valid target index and a positive chunk length, `SplitFixed.split`
returns the input sequence unchanged when the chunk length is at least the target's
length, and otherwise replaces exactly the target segment with consecutive chunks of
the given length covering its range (the last chunk carrying the remainder), all other
segments unchanged in place. -/
theorem c8_split_fixed (segments : List Seg) (segmentID : Nat) (chunkLength : Int)
    (selSeg : Seg) (hsel : segments[segmentID]? = some selSeg)
    (hchunk : 0 < chunkLength) (hlen : 0 < selSeg.length) :
    (selSeg.length ≤ chunkLength →
      SplitFixed.split segments segmentID chunkLength = some segments) ∧
    (chunkLength < selSeg.length →
      SplitFixed.split segments segmentID chunkLength
        = some (segments.take segmentID
            ++ specFixedChunks selSeg.ana selSeg.offset selSeg.length chunkLength
            ++ segments.drop (segmentID + 1))) := by
  constructor
  · intro h
    have hn : ¬ (chunkLength < selSeg.length) := by omega
    simp [SplitFixed.split, hsel, hn]
  · intro h
    simp only [SplitFixed.split, hsel, if_pos h]
    have := pyRange_map_chunks selSeg.ana chunkLength hchunk selSeg.length.toNat
      selSeg.length selSeg.offset (by omega) hlen
    simp only [Seg.nextOffset, this]

/-- C8 witness: splitting the single 5-byte segment at index 0 into chunks of length 2
yields chunks of lengths 2, 2 and 1. -/
theorem c8_split_fixed_witness :
    SplitFixed.split [⟨⟨0, [1, 2, 3, 4, 5]⟩, 0, 5⟩] 0 2
      = some [⟨⟨0, [1, 2, 3, 4, 5]⟩, 0, 2⟩, ⟨⟨0, [1, 2, 3, 4, 5]⟩, 2, 2⟩,
              ⟨⟨0, [1, 2, 3, 4, 5]⟩, 4, 1⟩] ∧
    SplitFixed.split [⟨⟨0, [1, 2, 3, 4, 5]⟩, 0, 5⟩] 0 7
      = some [⟨⟨0, [1, 2, 3, 4, 5]⟩, 0, 5⟩] := by
  constructor
  · have h := (c8_split_fixed [⟨⟨0, [1, 2, 3, 4, 5]⟩, 0, 5⟩] 0 2
      ⟨⟨0, [1, 2, 3, 4, 5]⟩, 0, 5⟩ rfl (by norm_num) (by norm_num)).2 (by norm_num)
    rw [h]
    rw [specFixedChunks]
    norm_num
    rw [specFixedChunks]
    norm_num
    rw [specFixedChunks]
    norm_num
  · exact (c8_split_fixed [⟨⟨0, [1, 2, 3, 4, 5]⟩, 0, 5⟩] 0 7
      ⟨⟨0, [1, 2, 3, 4, 5]⟩, 0, 5⟩ rfl (by norm_num) (by norm_num)).1 (by norm_num)

/-- Keys of a Python `Counter` built from `xs`: the distinct values in first-occurrence
order. -/
def firstOccKeys (xs : List (List Nat)) : List (List Nat) :=
  xs.foldl (fun acc x => if x ∈ acc then acc else acc ++ [x]) []

/-- `Counter(xs).items()`: each key paired with its multiplicity in `xs`. -/
def counterItems (xs : List (List Nat)) : List (List Nat × Nat) :=
  (firstOccKeys xs).map (fun k => (k, xs.count k))

/-- Stable insertion by descending count, modelling that `Counter.most_common()` sorts
by count descending and Python's sort is stable: an element inserted from the left
(earlier in iteration order) is placed before elements of equal count. -/
def insertByCount (p : List Nat × Nat) : List (List Nat × Nat) → List (List Nat × Nat)
  | [] => [p]
  | q :: qs => if p.2 < q.2 then q :: insertByCount p qs else p :: q :: qs

/-- `Counter(xs).most_common()`: the items sorted by count, descending, stable. -/
def mostCommon (xs : List (List Nat)) : List (List Nat × Nat) :=
  (counterItems xs).foldr insertByCount []

/-- `set(fv) != {0}` on a byte value: `fv` is not a nonempty all-zero sequence. -/
def notAllZero (fv : List Nat) : Bool :=
  !(!fv.isEmpty && fv.all (· == 0))

/-- Python `m.find(c) > -1` as a Bool: `c` occurs as a contiguous substring of `m`
(the empty string occurs at index 0). -/
def bytesContains (hay needle : List Nat) : Bool :=
  (List.range (hay.length + 1)).any (fun i => needle.isPrefixOf (hay.drop i))

/-- `CropDistinct.countCommonValues`, stage `segFreq[:thre]`: since `most_common()` is
sorted descending, the `while segFreq[thre][1] > freqThre` scan selects exactly the
leading entries whose count strictly exceeds `frequencyThreshold * len(segmentedMessages)`
(`0.1 * n`, modelled exactly by the rational comparison `10 * count > n`). -/
def CropDistinct.selectedFreq (segmentedMessages : List (List Seg)) :
    List (List Nat × Nat) :=
  (mostCommon ((segmentedMessages.flatten).map Seg.bytes)).takeWhile
    (fun kv => 10 * kv.2 > segmentedMessages.length)

/-- Stage `moco`: omit all-zero sequences and values shorter than
`minSegmentLength = 2`. -/
def CropDistinct.moco (segmentedMessages : List (List Seg)) : List (List Nat) :=
  ((CropDistinct.selectedFreq segmentedMessages).map Prod.fst).filter
    (fun fv => notAllZero fv && decide (2 ≤ fv.length))

/-- Stage `mocoShort`, the value returned by `CropDistinct.countCommonValues`:
`[m for m in moco if not any(m != c and m.find(c) > -1 for c in moco)]` — a value is
dropped when some *other* candidate occurs inside it as a substring. -/
def CropDistinct.countCommonValues (segmentedMessages : List (List Seg)) :
    List (List Nat) :=
  (CropDistinct.moco segmentedMessages).filter
    (fun m => !((CropDistinct.moco segmentedMessages).any
      (fun c => decide (m ≠ c) && bytesContains m c)))

/-- Modelled from the spec: the claim's drop rule — "drop any value that is a strict
substring of another surviving value" (read against the selected candidates) — i.e. a
value is dropped when it occurs inside some other candidate, keeping the longer one. -/
def CropDistinct.countCommonValuesClaim (segmentedMessages : List (List Seg)) :
    List (List Nat) :=
  (CropDistinct.moco segmentedMessages).filter
    (fun m => !((CropDistinct.moco segmentedMessages).any
      (fun c => decide (m ≠ c) && bytesContains c m)))

lemma mem_insertByCount (p x : List Nat × Nat) (l : List (List Nat × Nat)) :
    x ∈ insertByCount p l ↔ x = p ∨ x ∈ l := by
  induction l with
  | nil => simp [insertByCount]
  | cons q qs ih =>
    simp only [insertByCount]
    by_cases h : p.2 < q.2
    · rw [if_pos h]
      simp only [List.mem_cons, ih]
      tauto
    · rw [if_neg h]
      simp only [List.mem_cons]

lemma mem_mostCommon (xs : List (List Nat)) (x : List Nat × Nat) :
    x ∈ mostCommon xs ↔ x ∈ counterItems xs := by
  unfold mostCommon
  induction counterItems xs with
  | nil => simp
  | cons p l ih => simp [mem_insertByCount, ih]

lemma mem_takeWhile {α : Type} (p : α → Bool) (l : List α) (x : α) :
    x ∈ l.takeWhile p → x ∈ l ∧ p x = true := by
  induction l with
  | nil => simp
  | cons a as ih =>
    simp only [List.takeWhile]
    by_cases h : p a = true
    · simp only [h, List.mem_cons]
      intro hx
      rcases hx with hx | hx
      · exact ⟨Or.inl hx, hx ▸ h⟩
      · obtain ⟨h1, h2⟩ := ih hx
        exact ⟨Or.inr h1, h2⟩
    · simp only [Bool.not_eq_true] at h
      simp [h]

/-- C3 (amended): every value in the final common-values list occurs strictly more often
than `frequencyThreshold * len(messages)` (0.1·n), is not an all-zero sequence and has
length at least `minSegmentLength = 2`; no listed value is a substring of another listed
value; and the drop rule is: a selected candidate survives iff no *other* candidate
occurs inside it as a substring (the shorter value survives, the containing one is
dropped — the reverse of the claim's wording). -/
theorem c3_common_values (sm : List (List Seg)) :
    (∀ m ∈ CropDistinct.countCommonValues sm,
      10 * ((sm.flatten.map Seg.bytes).count m) > sm.length ∧
      notAllZero m = true ∧ 2 ≤ m.length ∧
      ∀ m' ∈ CropDistinct.countCommonValues sm, m' ≠ m → bytesContains m' m = false) ∧
    (∀ v ∈ CropDistinct.moco sm,
      (v ∈ CropDistinct.countCommonValues sm ↔
        ∀ c ∈ CropDistinct.moco sm, c ≠ v → bytesContains v c = false)) := by
  have hmoco : ∀ m, m ∈ CropDistinct.moco sm →
      10 * ((sm.flatten.map Seg.bytes).count m) > sm.length ∧
      notAllZero m = true ∧ 2 ≤ m.length := by
    intro m hm
    unfold CropDistinct.moco at hm
    rw [List.mem_filter] at hm
    obtain ⟨hmem, hpred⟩ := hm
    rw [List.mem_map] at hmem
    obtain ⟨kv, hkv, hfst⟩ := hmem
    have hsel := mem_takeWhile _ _ _ hkv
    obtain ⟨hmc, hthr⟩ := hsel
    rw [mem_mostCommon] at hmc
    unfold counterItems at hmc
    rw [List.mem_map] at hmc
    obtain ⟨k, _, hk⟩ := hmc
    have hcount : kv.2 = ((sm.flatten.map Seg.bytes)).count kv.1 := by
      rw [← hk]
    rw [Bool.and_eq_true, decide_eq_true_iff] at hpred
    refine ⟨?_, hpred.1, hpred.2⟩
    rw [← hfst, ← hcount]
    simpa using hthr
  constructor
  · intro m hm
    have hmm : m ∈ CropDistinct.moco sm := by
      unfold CropDistinct.countCommonValues at hm
      exact (List.mem_filter.mp hm).1
    refine ⟨(hmoco m hmm).1, (hmoco m hmm).2.1, (hmoco m hmm).2.2, ?_⟩
    intro m' hm' hne
    unfold CropDistinct.countCommonValues at hm'
    rw [List.mem_filter] at hm'
    obtain ⟨hm'moco, hpred⟩ := hm'
    rw [Bool.not_eq_eq_eq_not, Bool.not_true, List.any_eq_false] at hpred
    have hthis := hpred m hmm
    cases hb : bytesContains m' m with
    | false => rfl
    | true => exact absurd (by simp [hne, hb]) hthis
  · intro v hv
    unfold CropDistinct.countCommonValues
    rw [List.mem_filter]
    constructor
    · rintro ⟨-, hpred⟩ c hc hnecv
      rw [Bool.not_eq_eq_eq_not, Bool.not_true, List.any_eq_false] at hpred
      have hthis := hpred c hc
      cases hb : bytesContains v c with
      | false => rfl
      | true => exact absurd (by simp [Ne.symm hnecv, hb]) hthis
    · intro hall
      refine ⟨hv, ?_⟩
      rw [Bool.not_eq_eq_eq_not, Bool.not_true, List.any_eq_false]
      intro c hc
      by_cases hne : v = c
      · simp [hne]
      · simp [hall c hc (fun h => hne h.symm)]

/-- C3 witness: in the corpus with one message `b"ababc"` segmented as `[ab, abc]`, the
value `ab` is in the final list: it occurs once (strictly above `0.1 * 1`), is not
all-zero and is 2 bytes long. -/
theorem c3_common_values_witness :
    10 * ((([[⟨⟨0, [97, 98, 97, 98, 99]⟩, 0, 2⟩, ⟨⟨0, [97, 98, 97, 98, 99]⟩, 2, 3⟩]]
        : List (List Seg)).flatten.map Seg.bytes).count [97, 98])
      > ([[⟨⟨0, [97, 98, 97, 98, 99]⟩, 0, 2⟩, ⟨⟨0, [97, 98, 97, 98, 99]⟩, 2, 3⟩]]
        : List (List Seg)).length ∧
    notAllZero [97, 98] = true ∧ 2 ≤ ([97, 98] : List Nat).length := by
  have h := (c3_common_values
    [[⟨⟨0, [97, 98, 97, 98, 99]⟩, 0, 2⟩, ⟨⟨0, [97, 98, 97, 98, 99]⟩, 2, 3⟩]]).1
    [97, 98] (by decide)
  exact ⟨h.1, h.2.1, h.2.2.1⟩

/-- C3 counterexample: with one message `b"ababc"` segmented as `[ab, abc]`, both `ab`
and `abc` are selected candidates; the code keeps `ab` and drops `abc` (the value that
*contains* another candidate is dropped), while the claim's rule — drop values that are
strict substrings of surviving values — keeps `abc` and drops `ab`. -/
theorem c3_counterexample :
    CropDistinct.countCommonValues
        [[⟨⟨0, [97, 98, 97, 98, 99]⟩, 0, 2⟩, ⟨⟨0, [97, 98, 97, 98, 99]⟩, 2, 3⟩]]
      = [[97, 98]] ∧
    CropDistinct.countCommonValuesClaim
        [[⟨⟨0, [97, 98, 97, 98, 99]⟩, 0, 2⟩, ⟨⟨0, [97, 98, 97, 98, 99]⟩, 2, 3⟩]]
      = [[97, 98, 99]] ∧
    CropDistinct.moco
        [[⟨⟨0, [97, 98, 97, 98, 99]⟩, 0, 2⟩, ⟨⟨0, [97, 98, 97, 98, 99]⟩, 2, 3⟩]]
      = [[97, 98], [97, 98, 99]] := by
  decide

/-- Default segment used only as the (unreachable) `headD` fallback below. -/
def dummySeg : Seg := ⟨⟨0, []⟩, 0, 0⟩

/-- Byte length of the lookahead buffer: `sum([len(ws.bytes) for ws in workingStack])`. -/
def bufBytesLen (ws : List Seg) : Nat := (ws.map (fun s => s.bytes.length)).sum

/-- `b"".join([ws.bytes for ws in workingStack])`. -/
def joinBytes (ws : List Seg) : List Nat := (ws.map Seg.bytes).flatten

/-- The char-candidate test of `CumulativeCharMerger.merge`:
`isExtendedCharSeq(joinedbytes) and b"\x00\x00" not in joinedbytes`.
`isExtendedCharSeq` lives in `segmentHandler` (an external collaborator per spec §6)
and is passed in as an opaque predicate `ecs`. -/
def ccmTest (ecs : List Nat → Bool) (joined : List Nat) : Bool :=
  ecs joined && !(bytesContains joined [0, 0])

/-- The `while segmentStack:` loop of `CumulativeCharMerger.merge` (`minLen = 6`).
`stack` holds the remaining input in message order (the Python stack is reversed and
popped from the end), `working` is the lookahead buffer `workingStack` (oldest first),
and outputs are emitted in order. In the candidate-failure branch the Python guard
`len(workingStack) > 1` for pushing the last added segment back is rendered as the
`match working` below, since there `workingStack = working ++ [c]`; the `headD`
fallbacks are unreachable for the same reason. -/
def ccmGo (ecs : List Nat → Bool) (stack working : List Seg) (isCharCand : Bool) :
    List Seg :=
  match stack with
  | [] =>
    if working.length > 1 && isCharCand then
      [(⟨(working.headD dummySeg).ana, (working.headD dummySeg).offset,
        sumLens working⟩ : Seg)]
    else working
  | c :: stack' =>
    let w' := working ++ [c]
    if bufBytesLen w' < 6 then ccmGo ecs stack' w' isCharCand
    else if ccmTest ecs (joinBytes w') then ccmGo ecs stack' w' true
    else if isCharCand then
      (if w'.length > 2 then
        [(⟨(w'.headD dummySeg).ana, (w'.headD dummySeg).offset,
          sumLens w'.dropLast⟩ : Seg)]
       else [w'.headD dummySeg])
      ++ (match working with
          | [] => ccmGo ecs stack' [] false
          | _ :: _ => ccmGo ecs (c :: stack') [] false)
    else
      w'.headD dummySeg :: ccmGo ecs (w'.tail ++ stack') [] false
termination_by (stack.length + working.length, stack.length)
decreasing_by all_goals
  (simp only [Prod.lex_def, List.length_append, List.length_cons, List.length_tail,
    List.length_nil]; omega)

/-- `CumulativeCharMerger.merge`: run the loop on the whole sequence with an empty
buffer and no candidate. -/
def CumulativeCharMerger.merge (ecs : List Nat → Bool) (segments : List Seg) :
    List Seg :=
  ccmGo ecs segments [] false

/-- The number of loop iterations performed by `ccmGo` (one per recursive call). -/
def ccmSteps (ecs : List Nat → Bool) (stack working : List Seg) (isCharCand : Bool) :
    Nat :=
  match stack with
  | [] => 0
  | c :: stack' =>
    let w' := working ++ [c]
    if bufBytesLen w' < 6 then ccmSteps ecs stack' w' isCharCand + 1
    else if ccmTest ecs (joinBytes w') then ccmSteps ecs stack' w' true + 1
    else if isCharCand then
      (match working with
       | [] => ccmSteps ecs stack' [] false
       | _ :: _ => ccmSteps ecs (c :: stack') [] false) + 1
    else
      ccmSteps ecs (w'.tail ++ stack') [] false + 1
termination_by (stack.length + working.length, stack.length)
decreasing_by all_goals
  (simp only [Prod.lex_def, List.length_append, List.length_cons, List.length_tail,
    List.length_nil]; omega)

lemma collapse_head_sum (w0 : Seg) (ws : List Seg) :
    collapse (w0 :: ws) = ⟨w0.ana, w0.offset, sumLens (w0 :: ws)⟩ := by
  simp [collapse, sumLens]

/-- C7: (a) when adding segment `c` to a buffer that is already a character candidate
makes the combined test fail, everything in the buffer except the last added segment is
merged into a single output segment (first segment's analyzer/offset, summed length) and
`c` is pushed back onto the remaining input with the buffer reset; (b) at end of input,
a candidate buffer holding more than one segment is merged into one segment, otherwise
the buffered segments are emitted unmerged in order. -/
theorem c7_cumulative_merge :
    (∀ (ecs : List Nat → Bool) (c : Seg) (stack working : List Seg),
      working ≠ [] →
      6 ≤ bufBytesLen (working ++ [c]) →
      ccmTest ecs (joinBytes (working ++ [c])) = false →
      ccmGo ecs (c :: stack) working true
        = collapse working :: ccmGo ecs (c :: stack) [] false) ∧
    (∀ (ecs : List Nat → Bool) (working : List Seg) (isCharCand : Bool),
      ccmGo ecs [] working isCharCand
        = if working.length > 1 ∧ isCharCand = true then [collapse working]
          else working) := by
  constructor
  · intro ecs c stack working hne h6 htest
    rw [ccmGo.eq_def]
    have hb : ¬ (bufBytesLen (working ++ [c]) < 6) := by omega
    simp only [hb, htest, if_true, if_false, ite_true, ite_false, Bool.false_eq_true]
    cases working with
    | nil => exact absurd rfl hne
    | cons w0 ws =>
      cases ws with
      | nil =>
        simp [collapse, sumLens]
      | cons w1 ws' =>
        have hlen : ((w0 :: w1 :: ws') ++ [c]).length > 2 := by
          simp
        simp only [hlen, if_true, ite_true, List.dropLast_concat, List.headD]
        rw [collapse_head_sum]
        simp
  · intro ecs working isCharCand
    rw [ccmGo.eq_def]
    cases working with
    | nil => simp
    | cons w0 ws =>
      by_cases hf : ((w0 :: ws).length > 1 ∧ isCharCand = true)
      · have hb : ((w0 :: ws).length > 1 && isCharCand) = true := by
          rw [Bool.and_eq_true, decide_eq_true_iff]
          exact ⟨hf.1, hf.2⟩
        simp only [hb, if_true, ite_true, if_pos hf, List.headD]
        rw [collapse_head_sum]
      · have hb : ((w0 :: ws).length > 1 && isCharCand) = false := by
          rw [Bool.and_eq_false_iff]
          by_cases h1 : (w0 :: ws).length > 1
          · right
            rcases Bool.eq_false_or_eq_true isCharCand with h | h
            · exact absurd ⟨h1, h⟩ hf
            · exact h
          · left
            simpa using h1
        simp only [hb, Bool.false_eq_true, if_false, ite_false, if_neg hf]

/-- C7 witness: with an 8-byte message split 4+4, a failing test on the 8-byte buffer
while it was a candidate merges the buffer minus the last segment (here: just the first
segment) and pushes the last segment back; and at end of input a 2-segment candidate
buffer is merged into one segment. -/
theorem c7_cumulative_merge_witness :
    ccmGo (fun _ => false) [⟨⟨0, [65, 65, 65, 65, 65, 65, 65, 65]⟩, 4, 4⟩]
        [⟨⟨0, [65, 65, 65, 65, 65, 65, 65, 65]⟩, 0, 4⟩] true
      = collapse [⟨⟨0, [65, 65, 65, 65, 65, 65, 65, 65]⟩, 0, 4⟩]
        :: ccmGo (fun _ => false) [⟨⟨0, [65, 65, 65, 65, 65, 65, 65, 65]⟩, 4, 4⟩]
             [] false ∧
    ccmGo (fun _ => false) [] [⟨⟨0, [65, 65, 65, 65, 65, 65, 65, 65]⟩, 0, 4⟩,
        ⟨⟨0, [65, 65, 65, 65, 65, 65, 65, 65]⟩, 4, 4⟩] true
      = [collapse [⟨⟨0, [65, 65, 65, 65, 65, 65, 65, 65]⟩, 0, 4⟩,
          ⟨⟨0, [65, 65, 65, 65, 65, 65, 65, 65]⟩, 4, 4⟩]] := by
  constructor
  · exact c7_cumulative_merge.1 (fun _ => false) _ _ _ (by simp) (by decide) (by rfl)
  · have h := c7_cumulative_merge.2 (fun _ => false)
      [⟨⟨0, [65, 65, 65, 65, 65, 65, 65, 65]⟩, 0, 4⟩,
       ⟨⟨0, [65, 65, 65, 65, 65, 65, 65, 65]⟩, 4, 4⟩] true
    simpa using h

/-- C10: `CumulativeCharMerger.merge` terminates on every finite input with a bounded
amount of work: the loop runs at most `(|stack| + |buffer|)^2 + |stack| + 1` iterations
from any state — although segments are pushed back onto the remaining input, every
buffer reset permanently emits at least one segment, so the loop makes strict progress
(lexicographic measure: total pending segments, then stack size). -/
theorem c10_ccm_steps_bounded (ecs : List Nat → Bool) (stack working : List Seg)
    (isCharCand : Bool) :
    ccmSteps ecs stack working isCharCand
      ≤ (stack.length + working.length) ^ 2 + stack.length + 1 := by
  induction stack, working, isCharCand using ccmSteps.induct ecs with
  | case1 working flag =>
    rw [ccmSteps.eq_def]
    simp
  | case2 working flag c stack w' hbuf ih =>
    rw [ccmSteps.eq_def]
    simp only [hbuf, if_true, if_false, ite_true, ite_false]
    unfold w' at ih
    simp only [List.length_append, List.length_cons, List.length_nil] at ih ⊢
    have hb : stack.length + (working.length + 1) = stack.length + 1 + working.length := by
      omega
    rw [hb] at ih
    linarith [ih]
  | case3 working flag c stack w' hbuf hecs ih =>
    rw [ccmSteps.eq_def]
    simp only [hbuf, hecs, if_true, if_false, ite_true, ite_false]
    unfold w' at ih
    simp only [List.length_append, List.length_cons, List.length_nil] at ih ⊢
    have hb : stack.length + (working.length + 1) = stack.length + 1 + working.length := by
      omega
    rw [hb] at ih
    linarith [ih]
  | case4 working c stack w' hbuf hecs ih =>
    rw [ccmSteps.eq_def]
    simp only [hbuf, hecs, if_true, if_false, ite_true, ite_false, Bool.false_eq_true]
    cases working with
    | nil =>
      simp only at ih
      simp only [List.length_cons, List.length_nil] at ih ⊢
      have hsq : stack.length ^ 2 ≤ (stack.length + 1) ^ 2 :=
        Nat.pow_le_pow_left (Nat.le_succ _) 2
      have h0 : stack.length + 0 = stack.length := by omega
      rw [h0] at ih
      linarith [ih, hsq]
    | cons w0 ws =>
      simp only at ih
      simp only [List.length_cons, List.length_nil] at ih ⊢
      have hsq : (stack.length + 2) ^ 2 ≤ (stack.length + 1 + (ws.length + 1)) ^ 2 :=
        Nat.pow_le_pow_left (by omega) 2
      have hr : (stack.length + 2) ^ 2 = (stack.length + 1 + 0) ^ 2
          + 2 * (stack.length + 1) + 1 := by ring
      linarith [ih, hsq, hr]
  | case5 working flag c stack w' hbuf hecs hflag ih =>
    rw [ccmSteps.eq_def]
    simp only [hbuf, hecs, hflag, if_true, if_false, ite_true, ite_false,
      Bool.false_eq_true]
    unfold w' at ih
    simp only [List.length_append, List.length_cons, List.length_nil, List.length_tail,
      Nat.add_sub_cancel, Nat.add_zero] at ih ⊢
    have hr : (stack.length + 1 + working.length) ^ 2
        = (working.length + stack.length) ^ 2 + 2 * (working.length + stack.length)
          + 1 := by
      ring
    linarith [ih, hr]

lemma pySlice_length (l : List Nat) (a b : Int) (ha : 0 ≤ a) (hab : a ≤ b)
    (hb : b ≤ (l.length : Int)) :
    (pySlice l a b).length = (b - a).toNat := by
  unfold pySlice pyBound
  have h1 : ¬ (b < 0) := by omega
  have h2 : ¬ (a < 0) := by omega
  simp only [h1, h2, if_false, List.length_drop, List.length_take]
  omega

lemma Seg.bytes_length (s : Seg) (h : s.valid) : s.bytes.length = s.length.toNat := by
  obtain ⟨h1, h2, h3⟩ := h
  unfold Seg.msglen at h3
  unfold Seg.bytes
  rw [pySlice_length _ _ _ h1 (by unfold Seg.nextOffset; omega) h3]
  unfold Seg.nextOffset
  omega

/-- Byte-adjacency of consecutive segments. -/
def adjacent (x y : Seg) : Prop := x.nextOffset = y.offset

lemma sumLens_nonneg (l : List Seg) (h : ∀ x ∈ l, 0 < x.length) : 0 ≤ sumLens l := by
  induction l with
  | nil => simp [sumLens]
  | cons x xs ih =>
    simp only [sumLens, List.map_cons, List.sum_cons]
    have h1 := h x (by simp)
    have h2 : 0 ≤ sumLens xs := ih (fun y hy => h y (by simp [hy]))
    unfold sumLens at h2
    omega

lemma chain_nextOffset_sum (g0 : Seg) :
    ∀ (gt : List Seg), List.Chain' adjacent (g0 :: gt) →
      g0.nextOffset + sumLens gt = (gt.getLastD g0).nextOffset := by
  intro gt
  induction gt generalizing g0 with
  | nil => intro _; simp [sumLens]
  | cons g1 gt' ih =>
    intro hch
    rw [List.chain'_cons] at hch
    obtain ⟨hadj, hch'⟩ := hch
    have := ih g1 hch'
    simp only [sumLens, List.map_cons, List.sum_cons, List.getLastD_cons]
    unfold adjacent at hadj
    unfold sumLens at this
    unfold Seg.nextOffset at *
    omega

lemma getLastD_mem (g0 : Seg) : ∀ (gt : List Seg), gt.getLastD g0 ∈ g0 :: gt := by
  intro gt
  induction gt generalizing g0 with
  | nil => simp
  | cons g1 gt' ih =>
    rw [List.getLastD_cons]
    have := ih g1
    simp only [List.mem_cons] at this ⊢
    tauto

lemma breakRuns_props (condition : Seg → Seg → Bool) :
    ∀ (segs : List Seg) (g : List Seg), g ∈ breakRuns condition segs →
      g ≠ [] ∧ (∀ x ∈ g, x ∈ segs) ∧ g.Chain' adjacent := by
  intro segs
  induction segs with
  | nil => intro g hg; simp [breakRuns] at hg
  | cons s rest ih =>
    intro g hg
    cases rest with
    | nil =>
      simp only [breakRuns, List.mem_singleton] at hg
      subst hg
      refine ⟨by simp, ?_, by simp⟩
      intro x hx
      simp at hx
      simp [hx]
    | cons t rest' =>
      obtain ⟨g', gs', heq⟩ := breakRuns_cons condition t rest'
      have hfirst := ih (t :: g') (by rw [heq]; simp)
      by_cases hc : (s.nextOffset == t.offset && condition s t) = true
      · simp only [breakRuns, heq, hc, if_pos, List.mem_cons] at hg
        rcases hg with hg | hg
        · subst hg
          refine ⟨by simp, ?_, ?_⟩
          · intro x hx
            rcases List.mem_cons.mp hx with hx | hx
            · simp [hx]
            · exact List.mem_cons_of_mem s (hfirst.2.1 x hx)
          · rw [List.chain'_cons]
            refine ⟨?_, hfirst.2.2⟩
            rw [Bool.and_eq_true] at hc
            exact beq_iff_eq.mp hc.1
        · have hp := ih g (by rw [heq]; exact List.mem_cons_of_mem _ hg)
          exact ⟨hp.1, fun x hx => List.mem_cons_of_mem s (hp.2.1 x hx), hp.2.2⟩
      · simp only [Bool.not_eq_true] at hc
        simp only [breakRuns, heq, hc, Bool.false_eq_true, if_false, List.mem_cons] at hg
        rcases hg with hg | hg
        · subst hg
          refine ⟨by simp, ?_, by simp⟩
          intro x hx
          simp at hx
          simp [hx]
        · have hp := ih g (by rw [heq]; exact List.mem_cons.mpr hg)
          exact ⟨hp.1, fun x hx => List.mem_cons_of_mem s (hp.2.1 x hx), hp.2.2⟩

lemma merge_valid (condition : Seg → Seg → Bool) (a : Analyzer) (segs : List Seg)
    (hv : ∀ s ∈ segs, s.valid) (ha : ∀ s ∈ segs, s.ana = a) :
    ∀ s ∈ Merger.merge condition segs, s.valid := by
  intro s hs
  rw [merge_eq_mergeSpec] at hs
  unfold mergeSpec at hs
  rw [List.mem_map] at hs
  obtain ⟨g, hg, hcol⟩ := hs
  obtain ⟨hne, hmem, hch⟩ := breakRuns_props condition segs g hg
  cases g with
  | nil => exact absurd rfl hne
  | cons g0 gt =>
    have hg0 := hv g0 (hmem g0 (by simp))
    obtain ⟨ho, hl, hn⟩ := hg0
    have hsum : 0 ≤ sumLens gt :=
      sumLens_nonneg gt (fun x hx => (hv x (hmem x (by simp [hx]))).2.1)
    have hlast := chain_nextOffset_sum g0 gt hch
    have hglmem : gt.getLastD g0 ∈ g0 :: gt := getLastD_mem g0 gt
    have hglv := hv _ (hmem _ hglmem)
    have hana : g0.ana = (gt.getLastD g0).ana := by
      rw [ha g0 (hmem g0 (by simp)), ha _ (hmem _ hglmem)]
    rw [← hcol]
    show Seg.valid ⟨g0.ana, g0.offset, g0.length + sumLens gt⟩
    obtain ⟨-, -, hgl3⟩ := hglv
    unfold Seg.valid Seg.nextOffset Seg.msglen at *
    simp only at *
    rw [hana]
    omega

lemma Seg.valid_def (s : Seg) : s.valid ↔
    0 ≤ s.offset ∧ 0 < s.length ∧ s.offset + s.length ≤ (s.ana.msgData.length : Int) :=
  Iff.rfl

lemma Seg.validNN_def (s : Seg) : s.validNN ↔
    0 ≤ s.offset ∧ 0 ≤ s.length ∧ s.offset + s.length ≤ (s.ana.msgData.length : Int) :=
  Iff.rfl

lemma leadingPrintableCount_le : ∀ l : List Nat, leadingPrintableCount l ≤ l.length := by
  intro l
  induction l with
  | nil => simp [leadingPrintableCount]
  | cons c cs ih =>
    simp only [leadingPrintableCount, List.length_cons]
    by_cases h : isPrintableChar c = true
    · rw [if_pos h]; omega
    · rw [if_neg h]; omega

lemma integrateLeft_props (tL : Seg → Int)
    (htL : ∀ s : Seg, s.valid → 0 ≤ tL s ∧ tL s ≤ s.length) (a : Analyzer)
    (mangledRev : List Seg) (segc : Seg)
    (hm : ∀ s ∈ mangledRev, s.valid ∧ s.ana = a) (hcv : segc.valid) (hca : segc.ana = a) :
    (∀ s ∈ (RelocateSplits.integrateLeft tL mangledRev segc).1, s.valid ∧ s.ana = a) ∧
    (RelocateSplits.integrateLeft tL mangledRev segc).2.valid ∧
    (RelocateSplits.integrateLeft tL mangledRev segc).2.ana = a := by
  cases mangledRev with
  | nil =>
    unfold RelocateSplits.integrateLeft
    exact ⟨by simp, hcv, hca⟩
  | cons segl mearlier =>
    obtain ⟨hlv, hla⟩ := hm segl (by simp)
    have hb := htL segl hlv
    have hlv' := (Seg.valid_def segl).mp hlv
    have hcv' := (Seg.valid_def segc).mp hcv
    unfold RelocateSplits.integrateLeft
    simp only []
    by_cases hadj : (segl.nextOffset == segc.offset) = true
    · have hadj' : segl.offset + segl.length = segc.offset := by
        have := beq_iff_eq.mp hadj
        unfold Seg.nextOffset at this
        exact this
      rw [if_pos hadj]
      by_cases hsp : tL segl < segl.length
      · rw [if_pos hsp]
        by_cases hpos : tL segl > 0
        · rw [if_pos hpos]
          refine ⟨?_, ?_, by simpa using hca⟩
          · intro s hs
            rcases List.mem_cons.mp hs with hs | hs
            · subst hs
              refine ⟨?_, by simpa using hla⟩
              rw [Seg.valid_def]
              simp only
              omega
            · exact hm s (List.mem_cons_of_mem _ hs)
          · rw [Seg.valid_def]
            simp only
            rw [hca] at *
            rw [hla] at *
            omega
        · rw [if_neg hpos]
          refine ⟨?_, ?_, by simpa using hca⟩
          · intro s hs
            exact hm s (List.mem_cons_of_mem _ hs)
          · rw [Seg.valid_def]
            simp only
            rw [hca] at *
            rw [hla] at *
            omega
      · rw [if_neg hsp]
        exact ⟨hm, hcv, hca⟩
    · rw [if_neg (by simpa using hadj)]
      exact ⟨hm, hcv, hca⟩

lemma relocate_go_valid (tL tR : Seg → Int)
    (htL : ∀ s : Seg, s.valid → 0 ≤ tL s ∧ tL s ≤ s.length)
    (htR : ∀ s : Seg, s.valid → 0 ≤ tR s ∧ tR s ≤ s.length)
    (a : Analyzer) (stack mangledRev : List Seg) :
    (∀ s ∈ stack, s.valid ∧ s.ana = a) →
    (∀ s ∈ mangledRev, s.valid ∧ s.ana = a) →
    ∀ s ∈ RelocateSplits.go tL tR stack mangledRev, s.valid ∧ s.ana = a := by
  induction stack, mangledRev using RelocateSplits.go.induct tL tR with
  | case1 mangledRev =>
    intro _ hm
    rw [RelocateSplits.go.eq_def]
    simp only []
    exact hm
  | case2 mangledRev segc hpr =>
    intro hst hm
    obtain ⟨hcv, hca⟩ := hst segc (by simp)
    obtain ⟨h1, h2, h3⟩ := integrateLeft_props tL htL a mangledRev segc hm hcv hca
    rw [RelocateSplits.go.eq_def]
    simp only []
    rw [if_pos hpr]
    intro s hs
    rcases List.mem_cons.mp hs with hs | hs
    · subst hs
      exact ⟨h2, h3⟩
    · exact h1 s hs
  | case3 mangledRev segc hpr lm segr rest hadj sp hsp segc2 hrem ih =>
    intro hst hm
    obtain ⟨hcv, hca⟩ := hst segc (by simp)
    obtain ⟨hrv, hra⟩ := hst segr (by simp)
    obtain ⟨h1, h2, h3⟩ := integrateLeft_props tL htL a mangledRev segc hm hcv hca
    have hlm : RelocateSplits.integrateLeft tL mangledRev segc = lm := rfl
    rw [hlm] at h1 h2 h3
    have hbR := htR segr hrv
    have hrv' := (Seg.valid_def segr).mp hrv
    have h2' := (Seg.valid_def _).mp h2
    have hadj' : lm.2.offset + lm.2.length = segr.offset := by
      have hx := beq_iff_eq.mp hadj
      unfold Seg.nextOffset at hx
      exact hx
    rw [RelocateSplits.go.eq_def]
    simp only []
    rw [if_pos hpr]
    rw [if_pos hadj, if_pos hsp, if_pos hrem]
    apply ih
    · intro s hs
      rcases List.mem_cons.mp hs with hs | hs
      · subst hs
        refine ⟨?_, by simpa using hra⟩
        rw [Seg.valid_def]
        simp only
        unfold sp at *
        omega
      · exact hst s (by simp [hs])
    · intro s hs
      rcases List.mem_cons.mp hs with hs | hs
      · subst hs
        refine ⟨?_, by unfold segc2; simpa using h3⟩
        unfold segc2
        rw [Seg.valid_def]
        simp only
        rw [h3] at h2' ⊢
        rw [hra] at hrv'
        unfold sp at *
        omega
      · exact h1 s hs
  | case4 mangledRev segc hpr lm segr rest hadj sp hsp segc2 hrem ih =>
    intro hst hm
    obtain ⟨hcv, hca⟩ := hst segc (by simp)
    obtain ⟨hrv, hra⟩ := hst segr (by simp)
    obtain ⟨h1, h2, h3⟩ := integrateLeft_props tL htL a mangledRev segc hm hcv hca
    have hlm : RelocateSplits.integrateLeft tL mangledRev segc = lm := rfl
    rw [hlm] at h1 h2 h3
    have hbR := htR segr hrv
    have hrv' := (Seg.valid_def segr).mp hrv
    have h2' := (Seg.valid_def _).mp h2
    have hadj' : lm.2.offset + lm.2.length = segr.offset := by
      have hx := beq_iff_eq.mp hadj
      unfold Seg.nextOffset at hx
      exact hx
    rw [RelocateSplits.go.eq_def]
    simp only []
    rw [if_pos hpr]
    rw [if_pos hadj, if_pos hsp, if_neg hrem]
    apply ih
    · intro s hs
      exact hst s (by simp [hs])
    · intro s hs
      rcases List.mem_cons.mp hs with hs | hs
      · subst hs
        refine ⟨?_, by unfold segc2; simpa using h3⟩
        unfold segc2
        rw [Seg.valid_def]
        simp only
        rw [h3] at h2' ⊢
        rw [hra] at hrv'
        unfold sp at *
        omega
      · exact h1 s hs
  | case5 mangledRev segc hpr lm segr rest hadj sp hsp ih =>
    intro hst hm
    obtain ⟨hcv, hca⟩ := hst segc (by simp)
    obtain ⟨h1, h2, h3⟩ := integrateLeft_props tL htL a mangledRev segc hm hcv hca
    rw [RelocateSplits.go.eq_def]
    simp only []
    rw [if_pos hpr]
    rw [if_pos hadj, if_neg hsp]
    apply ih
    · intro s hs
      exact hst s (by simp [List.mem_cons.mp hs])
    · intro s hs
      rcases List.mem_cons.mp hs with hs | hs
      · subst hs
        exact ⟨h2, h3⟩
      · exact h1 s hs
  | case6 mangledRev segc hpr lm segr rest hadj ih =>
    intro hst hm
    obtain ⟨hcv, hca⟩ := hst segc (by simp)
    obtain ⟨h1, h2, h3⟩ := integrateLeft_props tL htL a mangledRev segc hm hcv hca
    rw [RelocateSplits.go.eq_def]
    simp only []
    rw [if_pos hpr]
    rw [if_neg hadj]
    apply ih
    · intro s hs
      exact hst s (by simp [List.mem_cons.mp hs])
    · intro s hs
      rcases List.mem_cons.mp hs with hs | hs
      · subst hs
        exact ⟨h2, h3⟩
      · exact h1 s hs
  | case7 mangledRev segc rest hpr ih =>
    intro hst hm
    rw [RelocateSplits.go.eq_def]
    simp only []
    rw [if_neg hpr]
    apply ih
    · intro s hs
      exact hst s (by simp [hs])
    · intro s hs
      rcases List.mem_cons.mp hs with hs | hs
      · subst hs
        exact hst s (by simp)
      · exact hm s hs

lemma resplitChars_toTheLeft_bounds (s : Seg) (h : s.valid) :
    0 ≤ ResplitConsecutiveChars.toTheLeft s ∧ ResplitConsecutiveChars.toTheLeft s ≤ s.length := by
  have hc := leadingPrintableCount_le s.bytes.reverse
  rw [List.length_reverse, Seg.bytes_length s h] at hc
  obtain ⟨-, h2, -⟩ := h
  unfold ResplitConsecutiveChars.toTheLeft
  omega

lemma resplitChars_toTheRight_bounds (s : Seg) (h : s.valid) :
    0 ≤ ResplitConsecutiveChars.toTheRight s ∧ ResplitConsecutiveChars.toTheRight s ≤ s.length := by
  have hc := leadingPrintableCount_le s.bytes
  rw [Seg.bytes_length s h] at hc
  obtain ⟨-, h2, -⟩ := h
  unfold ResplitConsecutiveChars.toTheRight
  omega

lemma lookup_some_spec (table : List (List Nat)) (seg : Seg) :
    ∃ ss : Int, Resplit2LeastFrequentPair.lookupLeastFrequent (some table) seg = .ok ss ∧
      (ss = 0 ∨ ((ss = -1 ∨ ss = 1) ∧ 2 ≤ seg.offset ∧ seg.offset + 2 ≤ seg.msglen)) := by
  unfold Resplit2LeastFrequentPair.lookupLeastFrequent
  by_cases h0 : seg.offset = 0
  · exact ⟨0, by rw [if_pos h0], Or.inl rfl⟩
  · rw [if_neg h0]
    by_cases hsh : seg.offset < 2 ∨ seg.offset + 2 > seg.msglen
    · exact ⟨0, by rw [if_pos hsh], Or.inl rfl⟩
    · rw [if_neg hsh]
      refine ⟨_, rfl, ?_⟩
      push_neg at hsh
      split_ifs with hA hB
      · exact Or.inl rfl
      · exact Or.inr ⟨Or.inl rfl, by omega, by omega⟩
      · exact Or.inr ⟨Or.inr rfl, by omega, by omega⟩

lemma resplit_go_validNN (table : List (List Nat)) (a : Analyzer) :
    ∀ (stack mangledRev out : List Seg),
      (∀ s ∈ stack, s.valid ∧ s.ana = a) →
      (∀ s ∈ mangledRev, s.validNN ∧ s.ana = a) →
      Resplit2LeastFrequentPair.go (some table) stack mangledRev = .ok out →
      ∀ s ∈ out, s.validNN := by
  intro stack
  induction stack with
  | nil =>
    intro mangledRev out _ hm hout
    simp only [Resplit2LeastFrequentPair.go, Except.ok.injEq] at hout
    subst hout
    intro s hs
    rw [List.mem_reverse] at hs
    exact (hm s hs).1
  | cons segc stack ih =>
    intro mangledRev out hst hm hout
    obtain ⟨hcv, hca⟩ := hst segc (by simp)
    have hcv' := (Seg.valid_def segc).mp hcv
    cases mangledRev with
    | nil =>
      simp only [Resplit2LeastFrequentPair.go] at hout
      refine ih [segc] out (fun s hs => hst s (by simp [hs])) ?_ hout
      intro s hs
      simp at hs
      subst hs
      refine ⟨?_, hca⟩
      rw [Seg.validNN_def]
      omega
    | cons segl mearlier =>
      obtain ⟨hlv, hla⟩ := hm segl (by simp)
      have hlv' := (Seg.validNN_def segl).mp hlv
      obtain ⟨ss, hlk, hspec⟩ := lookup_some_spec table segc
      simp only [Resplit2LeastFrequentPair.go] at hout
      by_cases hadj : (segl.nextOffset == segc.offset) = true
      · rw [if_pos hadj, hlk] at hout
        simp only [] at hout
        have hadj' : segl.offset + segl.length = segc.offset := by
          have hx := beq_iff_eq.mp hadj
          unfold Seg.nextOffset at hx
          exact hx
        by_cases hguard : ((0 > ss ∧ ss ≥ -segl.length) ∨ (0 < ss ∧ ss ≤ segc.length))
        · rw [if_pos hguard] at hout
          have hdepth : (ss = -1 ∨ ss = 1) ∧ 2 ≤ segc.offset
              ∧ segc.offset + 2 ≤ segc.msglen := by
            rcases hspec with h | h
            · exfalso; omega
            · exact h
          unfold Seg.msglen at hdepth
          rw [hca] at hdepth hcv'
          refine ih _ out (fun s hs => hst s (by simp [hs])) ?_ hout
          intro s hs
          rcases List.mem_cons.mp hs with hs | hs
          · subst hs
            refine ⟨?_, by simpa using hca⟩
            rw [Seg.validNN_def]
            simp only
            rw [hca]
            omega
          · by_cases hdel : (segl.length ≠ -ss)
            · rw [if_pos hdel] at hs
              rcases List.mem_cons.mp hs with hs | hs
              · subst hs
                refine ⟨?_, by simpa using hla⟩
                rw [Seg.validNN_def]
                simp only
                rw [hla]
                rw [hla] at hlv'
                omega
              · exact hm s (by simp [hs])
            · rw [if_neg hdel] at hs
              exact hm s (by simp [hs])
        · rw [if_neg hguard] at hout
          refine ih _ out (fun s hs => hst s (by simp [hs])) ?_ hout
          intro s hs
          rcases List.mem_cons.mp hs with hs | hs
          · subst hs
            exact ⟨(Seg.validNN_def _).mpr (by omega), hca⟩
          · exact hm s hs
      · rw [if_neg hadj] at hout
        refine ih _ out (fun s hs => hst s (by simp [hs])) ?_ hout
        intro s hs
        rcases List.mem_cons.mp hs with hs | hs
        · subst hs
          exact ⟨(Seg.validNN_def _).mpr (by omega), hca⟩
        · exact hm s hs

/-- Python `hay.find(needle)`: the lowest index at which `needle` occurs in `hay`,
`-1 if absent (the empty needle is found at index 0). -/
def pyFind (hay needle : List Nat) : Int :=
  match (List.range (hay.length + 1)).find? (fun i => needle.isPrefixOf (hay.drop i)) with
  | some i => (i : Int)
  | none => -1

/-- The inner `for comfeat in self._moco:` loop of `CropDistinct.split` for one segment:
the first common value found in the segment's bytes wins (`break`); `none` means no
value matched (`didReplace` stays false and the segment passes through). -/
def CropDistinct.cropOne (moco : List (List Nat)) (seg : Seg) : Option (List Seg) :=
  match moco with
  | [] => none
  | comfeat :: rest =>
    let comoff := pyFind seg.bytes comfeat
    if comoff = -1 then CropDistinct.cropOne rest seg
    else some (
      if seg.length = (comfeat.length : Int) then [seg]
      else
        (if comoff > 0 then [(⟨seg.ana, seg.offset, comoff⟩ : Seg)] else []) ++
        [(⟨seg.ana, seg.offset + comoff, (comfeat.length : Int)⟩ : Seg)] ++
        (let rlen := seg.length - comoff - (comfeat.length : Int)
         if rlen > 0 then
           [(⟨seg.ana, seg.offset + comoff + (comfeat.length : Int), rlen⟩ : Seg)]
         else []))

/-- `CropDistinct.split`: each segment is replaced by its crop (or passed through). -/
def CropDistinct.split (moco : List (List Nat)) (segments : List Seg) : List Seg :=
  (segments.map (fun seg => (CropDistinct.cropOne moco seg).getD [seg])).flatten

lemma pyFind_found (hay needle : List Nat) (h : pyFind hay needle ≠ -1) :
    0 ≤ pyFind hay needle ∧ (pyFind hay needle).toNat + needle.length ≤ hay.length := by
  unfold pyFind at *
  cases hfind : (List.range (hay.length + 1)).find?
      (fun i => needle.isPrefixOf (hay.drop i)) with
  | none => rw [hfind] at h; simp at h
  | some i =>
    have hp := List.find?_some hfind
    have hmem := List.mem_of_find?_eq_some hfind
    rw [List.mem_range] at hmem
    simp only [decide_eq_true_eq] at hp
    have hpre : needle <+: hay.drop i := by
      rwa [← List.isPrefixOf_iff_prefix]
    have hlen := hpre.length_le
    rw [List.length_drop] at hlen
    simp only []
    omega

lemma cropOne_valid (a : Analyzer) (seg : Seg) (hv : seg.valid) (ha : seg.ana = a) :
    ∀ (moco : List (List Nat)) (out : List Seg),
      (∀ v ∈ moco, v ≠ []) →
      CropDistinct.cropOne moco seg = some out →
      ∀ s ∈ out, s.valid ∧ s.ana = a := by
  intro moco
  induction moco with
  | nil => intro out _ hout; simp [CropDistinct.cropOne] at hout
  | cons comfeat rest ih =>
    intro out hne hout
    simp only [CropDistinct.cropOne] at hout
    by_cases hoff : pyFind seg.bytes comfeat = -1
    · rw [if_pos hoff] at hout
      exact ih out (fun v hvv => hne v (by simp [hvv])) hout
    · rw [if_neg hoff, Option.some.injEq] at hout
      subst hout
      have hfound := pyFind_found seg.bytes comfeat hoff
      have hbl := Seg.bytes_length seg hv
      rw [hbl] at hfound
      have hnz : comfeat.length ≠ 0 := by
        have := hne comfeat (by simp)
        intro hc
        exact this (List.eq_nil_of_length_eq_zero hc)
      have hv' := (Seg.valid_def seg).mp hv
      intro s hs
      by_cases heq : seg.length = (comfeat.length : Int)
      · rw [if_pos heq] at hs
        simp at hs
        subst hs
        exact ⟨hv, ha⟩
      · rw [if_neg heq] at hs
        simp only [List.append_assoc, List.mem_append] at hs
        rcases hs with hs | hs
        · by_cases hpos : pyFind seg.bytes comfeat > 0
          · rw [if_pos hpos] at hs
            simp at hs
            subst hs
            refine ⟨?_, by simpa using ha⟩
            rw [Seg.valid_def]
            simp only
            omega
          · rw [if_neg hpos] at hs
            simp at hs
        · rcases hs with hs | hs
          · simp at hs
            subst hs
            refine ⟨?_, by simpa using ha⟩
            rw [Seg.valid_def]
            simp only
            omega
          · by_cases hr : seg.length - pyFind seg.bytes comfeat - (comfeat.length : Int) > 0
            · rw [if_pos hr] at hs
              simp at hs
              subst hs
              refine ⟨?_, by simpa using ha⟩
              rw [Seg.valid_def]
              simp only
              omega
            · rw [if_neg hr] at hs
              simp at hs

lemma crop_split_valid (a : Analyzer) (moco : List (List Nat)) (segs : List Seg)
    (hne : ∀ v ∈ moco, v ≠ []) (hv : ∀ s ∈ segs, s.valid) (ha : ∀ s ∈ segs, s.ana = a) :
    ∀ s ∈ CropDistinct.split moco segs, s.valid := by
  intro s hs
  unfold CropDistinct.split at hs
  rw [List.mem_flatten] at hs
  obtain ⟨l, hl, hsl⟩ := hs
  rw [List.mem_map] at hl
  obtain ⟨seg, hseg, hout⟩ := hl
  cases hcrop : CropDistinct.cropOne moco seg with
  | none =>
    rw [hcrop] at hout
    simp at hout
    subst hout
    simp at hsl
    subst hsl
    exact hv _ hseg
  | some cropped =>
    rw [hcrop] at hout
    simp at hout
    subst hout
    exact (cropOne_valid a seg (hv seg hseg) (ha seg hseg) moco cropped hne hcrop s hsl).1

lemma collapse_valid_of_chain (a : Analyzer) (w0 : Seg) (ws : List Seg)
    (hmem : ∀ s ∈ w0 :: ws, s.valid ∧ s.ana = a)
    (hch : List.Chain' adjacent (w0 :: ws)) :
    (⟨w0.ana, w0.offset, sumLens (w0 :: ws)⟩ : Seg).valid := by
  have h0 := (Seg.valid_def w0).mp (hmem w0 (by simp)).1
  have hsum0 : 0 ≤ sumLens ws :=
    sumLens_nonneg ws (fun x hx => ((hmem x (by simp [hx])).1).2.1)
  have hlast := chain_nextOffset_sum w0 ws hch
  have hlv := (Seg.valid_def _).mp ((hmem _ (getLastD_mem w0 ws)).1)
  have ha0 := (hmem w0 (by simp)).2
  have hal := (hmem _ (getLastD_mem w0 ws)).2
  have hsc : sumLens (w0 :: ws) = w0.length + sumLens ws := by
    simp [sumLens]
  rw [Seg.valid_def]
  simp only
  unfold Seg.nextOffset at hlast
  rw [ha0] at *
  rw [hal] at hlv
  omega

lemma ccm_go_valid (ecs : List Nat → Bool) (a : Analyzer) (stack working : List Seg)
    (flag : Bool) :
    (∀ s ∈ working ++ stack, s.valid ∧ s.ana = a) →
    List.Chain' adjacent (working ++ stack) →
    ∀ s ∈ ccmGo ecs stack working flag, s.valid := by
  induction stack, working, flag using ccmGo.induct ecs with
  | case1 working flag hfl =>
    intro hmem hch
    rw [ccmGo.eq_def]
    simp only []
    rw [if_pos hfl]
    rw [List.append_nil] at hmem hch
    rw [Bool.and_eq_true, decide_eq_true_iff] at hfl
    cases working with
    | nil => simp at hfl
    | cons w0 ws =>
      intro s hs
      simp only [List.headD] at hs
      simp at hs
      subst hs
      exact collapse_valid_of_chain a w0 ws hmem hch
  | case2 working flag hfl =>
    intro hmem hch
    rw [ccmGo.eq_def]
    simp only []
    rw [if_neg hfl]
    intro s hs
    exact (hmem s (by simp [hs])).1
  | case3 working flag c stack w' hbuf ih =>
    intro hmem hch
    unfold w' at hbuf ih
    rw [ccmGo.eq_def]
    simp only []
    rw [if_pos hbuf]
    rw [List.append_assoc, List.singleton_append] at ih
    exact ih hmem hch
  | case4 working flag c stack w' hbuf htest ih =>
    intro hmem hch
    unfold w' at hbuf htest ih
    rw [ccmGo.eq_def]
    simp only []
    rw [if_neg hbuf, if_pos htest]
    rw [List.append_assoc, List.singleton_append] at ih
    exact ih hmem hch
  | case5 working c stack w' hbuf htest ih =>
    intro hmem hch
    unfold w' at hbuf htest ih
    rw [ccmGo.eq_def]
    simp only []
    rw [if_neg hbuf, if_neg htest, if_pos trivial]
    intro s hs
    rw [List.mem_append] at hs
    rcases hs with hs | hs
    · cases working with
      | nil =>
        simp at hs
        subst hs
        exact (hmem _ (by simp)).1
      | cons w0 ws =>
        have hdec := List.chain'_append.mp hch
        by_cases hlen : ((w0 :: ws) ++ [c] : List Seg).length > 2
        · rw [if_pos hlen, List.dropLast_concat] at hs
          simp only [List.cons_append, List.headD] at hs
          simp at hs
          subst hs
          exact collapse_valid_of_chain a w0 ws
            (fun x hx => hmem x (List.mem_append_left _ hx)) hdec.1
        · rw [if_neg hlen] at hs
          simp only [List.cons_append, List.headD] at hs
          simp at hs
          subst hs
          exact (hmem _ (by simp)).1
    · cases working with
      | nil =>
        simp only at ih
        simp only [List.nil_append] at hmem hch ih
        exact ih (fun x hx => hmem x (by simp [hx])) hch.tail s hs
      | cons w0 ws =>
        simp only at ih
        have hdec := List.chain'_append.mp hch
        simp only [List.nil_append] at ih
        exact ih (fun x hx => hmem x (List.mem_append_right _ hx)) hdec.2.1 s hs
  | case6 working flag c stack w' hbuf htest hflag ih =>
    intro hmem hch
    unfold w' at hbuf htest ih
    rw [ccmGo.eq_def]
    simp only []
    rw [if_neg hbuf, if_neg htest, if_neg hflag]
    intro s hs
    rcases List.mem_cons.mp hs with hs | hs
    · subst hs
      cases working with
      | nil => exact (hmem c (by simp)).1
      | cons w0 ws =>
        simp only [List.cons_append, List.headD]
        exact (hmem w0 (by simp)).1
    · cases working with
      | nil =>
        simp only [List.nil_append] at hmem hch
        simp only [List.nil_append, List.tail_cons] at ih
        exact ih (fun x hx => hmem x (by simp [hx])) hch.tail s hs
      | cons w0 ws =>
        have htl : ((w0 :: ws) ++ [c] : List Seg).tail = ws ++ [c] := by
          simp
        rw [htl] at ih
        simp only [List.nil_append, List.append_assoc, List.singleton_append] at ih
        rw [htl, List.append_assoc, List.singleton_append] at hs
        rw [List.cons_append] at hmem hch
        exact ih (fun x hx => hmem x (by simp [hx])) hch.tail s hs

lemma specFixedChunks_valid (a : Analyzer) (chunk : Int) (hc : 0 < chunk) :
    ∀ (n : Nat) (len offset : Int), len.toNat ≤ n → 0 < len → 0 ≤ offset →
      offset + len ≤ (a.msgData.length : Int) →
      ∀ s ∈ specFixedChunks a offset len chunk, s.valid := by
  intro n
  induction n with
  | zero =>
    intro len offset hle hpos _ _
    exact absurd hle (by omega)
  | succ k ih =>
    intro len offset hle hpos hoff hbound
    rw [specFixedChunks, dif_pos ⟨hc, hpos⟩]
    by_cases hle2 : len ≤ chunk
    · rw [if_pos hle2]
      intro s hs
      simp at hs
      subst hs
      rw [Seg.valid_def]
      simp only
      omega
    · rw [if_neg hle2]
      intro s hs
      rcases List.mem_cons.mp hs with hs | hs
      · subst hs
        rw [Seg.valid_def]
        simp only
        omega
      · exact ih (len - chunk) (offset + chunk) (by omega) (by omega) (by omega)
          (by omega) s hs

lemma mem_of_getElem?_some {α : Type} {l : List α} {i : Nat} {x : α}
    (h : l[i]? = some x) : x ∈ l := by
  rw [List.getElem?_eq_some] at h
  obtain ⟨hi, hx⟩ := h
  rw [← hx]
  exact List.getElem_mem hi

lemma split_fixed_valid (segs : List Seg) (segmentID : Nat) (chunkLength : Int)
    (out : List Seg) (hv : ∀ s ∈ segs, s.valid) (hchunk : 0 < chunkLength)
    (hout : SplitFixed.split segs segmentID chunkLength = some out) :
    ∀ s ∈ out, s.valid := by
  unfold SplitFixed.split at hout
  cases hsel : segs[segmentID]? with
  | none =>
    rw [hsel] at hout
    simp at hout
  | some selSeg =>
    rw [hsel] at hout
    simp only [] at hout
    have hselv := hv selSeg (mem_of_getElem?_some hsel)
    have hselv' := (Seg.valid_def selSeg).mp hselv
    by_cases hlt : chunkLength < selSeg.length
    · rw [if_pos hlt, Option.some.injEq] at hout
      subst hout
      intro s hs
      rw [List.mem_append] at hs
      rcases hs with hs | hs
      · rw [List.mem_append] at hs
        rcases hs with hs | hs
        · exact hv s (List.take_subset _ _ hs)
        · have hchunks := pyRange_map_chunks selSeg.ana chunkLength hchunk
            selSeg.length.toNat selSeg.length selSeg.offset (by omega) (by omega)
          unfold Seg.nextOffset at hs
          rw [hchunks] at hs
          exact specFixedChunks_valid selSeg.ana chunkLength hchunk
            selSeg.length.toNat selSeg.length selSeg.offset (by omega) (by omega)
            (by omega) (by omega) s hs
      · exact hv s (List.drop_subset _ _ hs)
    · rw [if_neg hlt, Option.some.injEq] at hout
      subst hout
      exact hv

/-- C5 (amended): on spec-conformant inputs (valid segments of one message; for the
cumulative merger additionally gapless), every segment produced by the passes of
§4.2–4.7 satisfies `offset ≥ 0`, `length > 0` and `nextOffset ≤ len(message.data)` —
except the frequency-guided resplit, whose outputs satisfy the invariants weakened to
`length ≥ 0`: a right-shift can shrink a 1-byte right neighbor to exactly zero length
(see the counterexample), but never below zero. -/
theorem c5_segment_invariants :
    (∀ (condition : Seg → Seg → Bool) (a : Analyzer) (segs : List Seg),
      (∀ s ∈ segs, s.valid) → (∀ s ∈ segs, s.ana = a) →
      ∀ s ∈ Merger.merge condition segs, s.valid) ∧
    (∀ (a : Analyzer) (segs : List Seg),
      (∀ s ∈ segs, s.valid) → (∀ s ∈ segs, s.ana = a) →
      ∀ s ∈ ResplitConsecutiveChars.split segs, s.valid) ∧
    (∀ (table : List (List Nat)) (a : Analyzer) (segs out : List Seg),
      (∀ s ∈ segs, s.valid) → (∀ s ∈ segs, s.ana = a) →
      Resplit2LeastFrequentPair.split (some table) segs = .ok out →
      ∀ s ∈ out, s.validNN) ∧
    (∀ (moco : List (List Nat)) (a : Analyzer) (segs : List Seg),
      (∀ v ∈ moco, v ≠ []) → (∀ s ∈ segs, s.valid) → (∀ s ∈ segs, s.ana = a) →
      ∀ s ∈ CropDistinct.split moco segs, s.valid) ∧
    (∀ (ecs : List Nat → Bool) (a : Analyzer) (segs : List Seg),
      (∀ s ∈ segs, s.valid) → (∀ s ∈ segs, s.ana = a) →
      List.Chain' adjacent segs →
      ∀ s ∈ CumulativeCharMerger.merge ecs segs, s.valid) ∧
    (∀ (segs out : List Seg) (segmentID : Nat) (chunkLength : Int),
      (∀ s ∈ segs, s.valid) → 0 < chunkLength →
      SplitFixed.split segs segmentID chunkLength = some out →
      ∀ s ∈ out, s.valid) := by
  refine ⟨merge_valid, ?_, ?_, ?_, ?_, ?_⟩
  · intro a segs hv ha s hs
    unfold ResplitConsecutiveChars.split RelocateSplits.split at hs
    by_cases hlen : segs.length > 1
    · rw [if_pos hlen, List.mem_reverse] at hs
      exact (relocate_go_valid _ _ resplitChars_toTheLeft_bounds
        resplitChars_toTheRight_bounds a segs []
        (fun x hx => ⟨hv x hx, ha x hx⟩) (by simp) s hs).1
    · rw [if_neg hlen] at hs
      simp at hs
  · intro table a segs out hv ha hout
    cases segs with
    | nil => simp [Resplit2LeastFrequentPair.split] at hout
    | cons s0 rest =>
      simp only [Resplit2LeastFrequentPair.split] at hout
      refine resplit_go_validNN table a rest [s0] out
        (fun x hx => ⟨hv x (by simp [hx]), ha x (by simp [hx])⟩) ?_ hout
      intro x hx
      rw [List.mem_singleton] at hx
      rw [hx]
      refine ⟨?_, ha s0 (by simp)⟩
      have h := (Seg.valid_def s0).mp (hv s0 (by simp))
      rw [Seg.validNN_def]
      omega
  · intro moco a segs hne hv ha
    exact crop_split_valid a moco segs hne hv ha
  · intro ecs a segs hv ha hch
    unfold CumulativeCharMerger.merge
    refine ccm_go_valid ecs a segs [] false
      (fun x hx => ⟨hv x (by simpa using hx), ha x (by simpa using hx)⟩) ?_
    simpa using hch
  · intro segs out segmentID chunkLength hv hchunk hout
    exact split_fixed_valid segs segmentID chunkLength out hv hchunk hout

/-- C5 witness: concrete runs of all six passes on 4-byte messages, each hypothesis
discharged by computation; the produced segments named here satisfy the invariants. -/
theorem c5_segment_invariants_witness :
    Seg.valid ⟨⟨0, [65, 66, 67, 68]⟩, 0, 4⟩ ∧
    Seg.valid ⟨⟨1, [0, 1]⟩, 0, 1⟩ ∧
    Seg.validNN ⟨⟨0, [65, 66, 67, 68]⟩, 0, 2⟩ ∧
    Seg.valid ⟨⟨0, [65, 66, 67, 68]⟩, 1, 2⟩ ∧
    Seg.valid ⟨⟨0, [65, 66, 67, 68]⟩, 0, 2⟩ ∧
    Seg.valid ⟨⟨2, [9, 9, 9]⟩, 0, 3⟩ := by
  refine ⟨?_, ?_, ?_, ?_, ?_, ?_⟩
  · exact c5_segment_invariants.1 MergeConsecutiveChars.condition ⟨0, [65, 66, 67, 68]⟩
      [⟨⟨0, [65, 66, 67, 68]⟩, 0, 2⟩, ⟨⟨0, [65, 66, 67, 68]⟩, 2, 2⟩]
      (by decide) (by decide) _ (by decide)
  · have hrun : ResplitConsecutiveChars.split
        [⟨⟨1, [0, 1]⟩, 0, 1⟩, ⟨⟨1, [0, 1]⟩, 1, 1⟩]
        = [⟨⟨1, [0, 1]⟩, 0, 1⟩, ⟨⟨1, [0, 1]⟩, 1, 1⟩] := by
      unfold ResplitConsecutiveChars.split RelocateSplits.split
      rw [if_pos (by decide)]
      rw [RelocateSplits.go.eq_def]
      simp only []
      rw [if_neg (by decide)]
      rw [RelocateSplits.go.eq_def]
      simp only []
      rw [if_neg (by decide)]
      rw [RelocateSplits.go.eq_def]
      simp only []
      simp
    refine c5_segment_invariants.2.1 ⟨1, [0, 1]⟩
      [⟨⟨1, [0, 1]⟩, 0, 1⟩, ⟨⟨1, [0, 1]⟩, 1, 1⟩]
      (by decide) (by decide) _ ?_
    rw [hrun]
    simp
  · exact c5_segment_invariants.2.2.1 [] ⟨0, [65, 66, 67, 68]⟩
      [⟨⟨0, [65, 66, 67, 68]⟩, 0, 2⟩, ⟨⟨0, [65, 66, 67, 68]⟩, 2, 2⟩]
      [⟨⟨0, [65, 66, 67, 68]⟩, 0, 2⟩, ⟨⟨0, [65, 66, 67, 68]⟩, 2, 2⟩]
      (by decide) (by decide) (by rfl) _ (by decide)
  · exact c5_segment_invariants.2.2.2.1 [[66, 67]] ⟨0, [65, 66, 67, 68]⟩
      [⟨⟨0, [65, 66, 67, 68]⟩, 0, 4⟩]
      (by decide) (by decide) (by decide) _ (by decide)
  · refine c5_segment_invariants.2.2.2.2.1 (fun _ => false) ⟨0, [65, 66, 67, 68]⟩
      [⟨⟨0, [65, 66, 67, 68]⟩, 0, 2⟩, ⟨⟨0, [65, 66, 67, 68]⟩, 2, 2⟩]
      (by decide) (by decide)
      (by rw [List.chain'_pair]; unfold adjacent Seg.nextOffset; decide) _ ?_
    have hrun : CumulativeCharMerger.merge (fun _ => false)
        [⟨⟨0, [65, 66, 67, 68]⟩, 0, 2⟩, ⟨⟨0, [65, 66, 67, 68]⟩, 2, 2⟩]
        = [⟨⟨0, [65, 66, 67, 68]⟩, 0, 2⟩, ⟨⟨0, [65, 66, 67, 68]⟩, 2, 2⟩] := by
      unfold CumulativeCharMerger.merge
      rw [ccmGo.eq_def]
      simp only []
      rw [if_pos (by decide)]
      rw [ccmGo.eq_def]
      simp only []
      rw [if_pos (by decide)]
      rw [ccmGo.eq_def]
      simp only []
      rw [if_neg (by decide)]
      simp
    rw [hrun]
    simp
  · exact c5_segment_invariants.2.2.2.2.2 [⟨⟨2, [9, 9, 9]⟩, 0, 3⟩]
      [⟨⟨2, [9, 9, 9]⟩, 0, 3⟩] 0 7 (by decide) (by decide) (by rfl) _ (by simp)


/-- C5 counterexample: with the table `[[0,1],[0,0]]` over message `[0,0,1,2]`, the
boundary at offset 2 has its after window strictly least, so the resplit shifts it
right by 1; the right segment had length 1 and is emitted with length 0 — a produced
segment violating the invariant `length > 0` (0 is not `> 0`, though never negative). -/
theorem c5_counterexample :
    Resplit2LeastFrequentPair.split (some [[0, 1], [0, 0]])
        [⟨⟨0, [0, 0, 1, 2]⟩, 0, 2⟩, ⟨⟨0, [0, 0, 1, 2]⟩, 2, 1⟩, ⟨⟨0, [0, 0, 1, 2]⟩, 3, 1⟩]
      = .ok [⟨⟨0, [0, 0, 1, 2]⟩, 0, 3⟩, ⟨⟨0, [0, 0, 1, 2]⟩, 3, 0⟩,
             ⟨⟨0, [0, 0, 1, 2]⟩, 3, 1⟩] ∧
    ¬ (⟨⟨0, [0, 0, 1, 2]⟩, 3, 0⟩ : Seg).valid ∧
    (∀ s ∈ [(⟨⟨0, [0, 0, 1, 2]⟩, 0, 2⟩ : Seg), ⟨⟨0, [0, 0, 1, 2]⟩, 2, 1⟩,
        ⟨⟨0, [0, 0, 1, 2]⟩, 3, 1⟩], s.valid) := by
  exact ⟨by rfl, by decide, by decide⟩
